import Mathlib

/-!
Shallow embedding of the sequential phase-field control program
(`src/sequential_run.py` together with the constants of `src/config.py`).

Modelling conventions:
* Python strings are Lean `String`; `str.split()` / `str.strip()` /
  `file.readlines()` are embedded as `pySplit` / `pyStrip` /
  `pyReadlines`.
* Python exceptions are `Option`: `none` means the operation raised.
* Python / NumPy integer indexing (one negative wrap, `IndexError`
  otherwise) is `npIdx`.
* Python floats are embedded as `PyVal`: an exact rational for a finite
  value, plus signed infinity and NaN as `float()` parses them.  The
  binary-float values of the real program differ from exact rationals, but
  the verified claims depend only on parse success, finiteness and the
  printed shape, which are value-faithful here.
* The external SLURM scheduler is an oracle: `SubmitResult` is the outcome
  of the `sbatch` call, `QueryResult` the outcome of one `squeue` call, and
  a job's poll history is a list of `QueryResult`s.
* The filesystem of `PELOOP.%08d.dat` chunk files is a map from the 8-digit
  index to the file's line list (the pattern is injective in the index, so
  keying by the index is faithful); `none` means the file is absent.
-/

namespace SeqRun

/-- Tokeniser behind Python `str.split()`: `cur` holds the characters of the
token being read, in reverse. -/
def splitTokensAux (cur : List Char) : List Char → List String
  | [] => if cur = [] then [] else [String.mk cur.reverse]
  | c :: rest =>
    if c.isWhitespace then
      if cur = [] then splitTokensAux [] rest
      else String.mk cur.reverse :: splitTokensAux [] rest
    else splitTokensAux (c :: cur) rest

/-- Python `str.split()` with no argument: split on whitespace runs and
discard empty tokens. -/
def pySplit (s : String) : List String :=
  splitTokensAux [] s.toList

/-- Decimal value of a list of digit characters (most significant first). -/
def digitsVal (l : List Char) : ℕ :=
  l.foldl (fun a c => 10 * a + (c.toNat - 48)) 0

/-- Python `int(token)` on a whitespace-free token: optional sign, then one
or more decimal digits; anything else raises `ValueError` (`none`). -/
def pyInt (s : String) : Option ℤ :=
  match s.toList with
  | '-' :: t => if t ≠ [] ∧ t.all Char.isDigit then some (-(digitsVal t : ℤ)) else none
  | '+' :: t => if t ≠ [] ∧ t.all Char.isDigit then some ((digitsVal t : ℤ)) else none
  | t => if t ≠ [] ∧ t.all Char.isDigit then some ((digitsVal t : ℤ)) else none

/-- Split a character list at the first character satisfying `p`: the part
before it, and (when present) the part after it. -/
def splitAtChar (p : Char → Bool) : List Char → List Char × Option (List Char)
  | [] => ([], none)
  | c :: t =>
    if p c then ([], some t)
    else
      let r := splitAtChar p t
      (c :: r.1, r.2)

/-- Consume an optional leading sign; returns (isNegative, rest). -/
def parseSign : List Char → Bool × List Char
  | '-' :: t => (true, t)
  | '+' :: t => (false, t)
  | l => (false, l)

/-- Unsigned decimal mantissa of a Python float literal: `digits`,
`digits.digits`, `digits.` or `.digits`. -/
def parseUFloat (l : List Char) : Option ℚ :=
  let r := splitAtChar (fun c => c = '.') l
  match r.2 with
  | none =>
    if r.1 ≠ [] ∧ r.1.all Char.isDigit then some ((digitsVal r.1 : ℚ)) else none
  | some fp =>
    if (r.1 ≠ [] ∨ fp ≠ []) ∧ r.1.all Char.isDigit ∧ fp.all Char.isDigit then
      some ((digitsVal r.1 : ℚ) + (digitsVal fp : ℚ) / 10 ^ fp.length)
    else none

/-- A Python float value: a finite value (exact rational here), a signed
infinity, or NaN.  (CPython's `float` format drops a NaN's sign.) -/
inductive PyVal where
  | fin (q : ℚ)
  | inf (neg : Bool)
  | nan
deriving DecidableEq

def PyVal.isFinite : PyVal → Bool
  | .fin _ => true
  | _ => false

/-- Python `float(token)` on a whitespace-free token: finite decimal and
scientific literals, and the case-insensitive special spellings
`inf`/`infinity`/`nan`, each with an optional sign. -/
def pyFloat (s : String) : Option PyVal :=
  let sg := parseSign s.toList
  let low := sg.2.map Char.toLower
  if low = ['i', 'n', 'f'] ∨ low = ['i', 'n', 'f', 'i', 'n', 'i', 't', 'y'] then
    some (PyVal.inf sg.1)
  else if low = ['n', 'a', 'n'] then some PyVal.nan
  else
    let me := splitAtChar (fun c => c = 'e' ∨ c = 'E') sg.2
    ((parseUFloat me.1).bind fun m =>
      (match me.2 with
       | none => some m
       | some el =>
         let esg := parseSign el
         if esg.2 ≠ [] ∧ esg.2.all Char.isDigit then
           some (m * (10 : ℚ) ^
             (if esg.1 then -(digitsVal esg.2 : ℤ) else (digitsVal esg.2 : ℤ)))
         else none)).map fun v => PyVal.fin (if sg.1 then -v else v)

/-- Python / NumPy index normalisation along one axis of length `n`:
a negative index wraps once; out of range raises `IndexError` (`none`). -/
def npIdx (n : ℕ) (i : ℤ) : Option ℕ :=
  if 0 ≤ i then (if i < (n : ℤ) then some i.toNat else none)
  else (if 0 ≤ i + (n : ℤ) then some (i + (n : ℤ)).toNat else none)

/-- Python `file.readlines()`: split after every newline character, keeping
the terminator; a final newline-less fragment is kept, an empty tail is not. -/
def pyReadlinesAux (acc : List Char) : List Char → List (List Char)
  | [] => if acc = [] then [] else [acc.reverse]
  | c :: rest =>
    if c = '\n' then (acc.reverse ++ ['\n']) :: pyReadlinesAux [] rest
    else pyReadlinesAux (c :: acc) rest

def pyReadlines (s : String) : List String :=
  (pyReadlinesAux [] s.toList).map String.mk

/-- Python `''.join(lines)` / `file.writelines(lines)`: the file content is
the concatenation of the line strings. -/
def pyWritelines (lines : List String) : String := String.join lines

/-! ### `modify_input_params` (src/sequential_run.py lines 75-94) -/

/-- The suffix of a line from its first `!` onward; this is
`'!' + old_line.split('!', 1)[1]` of the source. -/
def commentOf (old : String) : String :=
  String.mk (old.toList.dropWhile (fun ch => ch ≠ '!'))

/-- The loop body's replacement for one line (`'!' in old_line` is character
membership): keep an inline `!` comment, otherwise terminate the new content
with a newline. -/
def editLine (newContent old : String) : String :=
  if '!' ∈ old.toList then newContent ++ " " ++ commentOf old
  else newContent ++ "\n"

/-- One iteration of the `for line_key, new_content in params.items()` loop:
`lines[line_num - 1]` read and written with Python list-index semantics. -/
def applyEdit (lines : List String) (lineNum : ℤ) (newContent : String) :
    Option (List String) :=
  match npIdx lines.length (lineNum - 1) with
  | none => none
  | some i => some (lines.set i (editLine newContent (lines.getD i "")))

/-- `modify_input_params`: read the file's lines, apply every edit in order,
and write the file back.  `params` carries the already-parsed line numbers
(`int(line_key.replace('line', ''))` of the source).  A raised `IndexError`
(`none`) propagates before `write_input_file` runs, so on `none` the file on
disk is unchanged. -/
def modify_input_params (content : String) (params : List (ℤ × String)) :
    Option String :=
  (params.foldlM (fun ls p => applyEdit ls p.1 p.2) (pyReadlines content)).map
    pyWritelines

/-! ### `submit_job` (lines 97-117) -/

/-- Outcome of the `sbatch` invocation: `ok stdout` is a zero exit with the
given standard output; `err` is a non-zero exit (`CalledProcessError`). -/
inductive SubmitResult where
  | ok (stdout : String)
  | err
deriving DecidableEq

/-- Python `str.strip()` with no argument: drop whitespace from both ends. -/
def pyStrip (s : String) : String :=
  String.mk (((s.toList.dropWhile Char.isWhitespace).reverse.dropWhile
    Char.isWhitespace).reverse)

/-- Does `pat` occur at the very beginning of `l`? -/
def leadEq : List Char → List Char → Bool
  | [], _ => true
  | _ :: _, [] => false
  | a :: as, b :: bs => a = b && leadEq as bs

/-- Does `pat` occur contiguously anywhere in `l`? -/
def hasSub (pat : List Char) : List Char → Bool
  | [] => leadEq pat []
  | b :: bs => leadEq pat (b :: bs) || hasSub pat bs

/-- Python `pat in s` substring test. -/
def containsSubstr (s pat : String) : Bool :=
  hasSub pat.toList s.toList

def sbatchMarker : String := "Submitted batch job"

/-- `submit_job`: on success parse the acknowledgment; the job id is the
trailing whitespace token (`output.split()[-1]`, reachable only when the
marker phrase is present, hence the list is non-empty). -/
def submit_job (r : SubmitResult) : Option String :=
  match r with
  | .ok out0 =>
    let output := pyStrip out0
    if containsSubstr output sbatchMarker then some ((pySplit output).getLastD "")
    else none
  | .err => none

/-- The `log_message` calls of `submit_job` that report an anomaly. -/
def submit_job_logs (r : SubmitResult) : List String :=
  match r with
  | .ok out0 =>
    let output := pyStrip out0
    if containsSubstr output sbatchMarker then []
    else ["WARNING: Unexpected sbatch output: " ++ output]
  | .err => ["ERROR: Job submission failed"]

/-! ### `check_job_status` / `wait_for_job_completion` (lines 120-148) -/

/-- Outcome of one `squeue -j` invocation: `ok stdout` is any completed call
(also with non-zero exit status — `check=True` is not passed), `exn msg` is a
raised exception. -/
inductive QueryResult where
  | ok (stdout : String)
  | exn (msg : String)
deriving DecidableEq

/-- `check_job_status`: `job_id in result.stdout`; an exception is logged and
yields `False`. -/
def check_job_status (jobId : String) (q : QueryResult) : Bool :=
  match q with
  | .ok out => containsSubstr out jobId
  | .exn _ => false

/-- The warning `check_job_status` logs, keyed to the query outcome. -/
def check_job_status_logs (q : QueryResult) : List String :=
  match q with
  | .ok _ => []
  | .exn msg => ["WARNING: Error checking job status: " ++ msg]

/-- `wait_for_job_completion`: poll until the job id no longer appears.  The
argument lists the successive query outcomes; `some true` is the function's
`return True` at the first absent poll, `none` means the observed polls were
exhausted with the loop still running (the real loop has no timeout). -/
def wait_for_job_completion (jobId : String) : List QueryResult → Option Bool
  | [] => none
  | q :: rest =>
    if check_job_status jobId q then wait_for_job_completion jobId rest
    else some true

/-! ### `extract_final_state` (lines 151-207) -/

/-- The dense per-step grid: dimensions and the three scalar fields
(`pxx`, `pyy`, `pzz` of the source, zero-initialised by `np.zeros`). -/
structure Grid where
  nx : ℕ
  ny : ℕ
  nz : ℕ
  px : ℕ × ℕ × ℕ → PyVal
  py : ℕ × ℕ × ℕ → PyVal
  pz : ℕ × ℕ × ℕ → PyVal

/-- The parsed record of one data line: the first three tokens as ints
(`map(int, pts[:3])`), the next three as floats (`map(float, pts[3:6])`);
`none` when a parse raises or there are fewer than 6 tokens. -/
def lineRecord (line : String) : Option (ℤ × ℤ × ℤ × PyVal × PyVal × PyVal) :=
  match pySplit line with
  | p0 :: p1 :: p2 :: p3 :: p4 :: p5 :: _ =>
    match pyInt p0, pyInt p1, pyInt p2, pyFloat p3, pyFloat p4, pyFloat p5 with
    | some i1, some j1, some k1, some vx, some vy, some vz =>
      some (i1, j1, k1, vx, vy, vz)
    | _, _, _, _, _, _ => none
  | _ => none

/-- One data line of a chunk file: fewer than 6 tokens is skipped
(`continue`); otherwise the three indices and three values are parsed and
stored at the wrapped zero-based index (any parse or index failure raises,
aborting the extraction). -/
def processDataLine (g : Grid) (line : String) : Option Grid :=
  if (pySplit line).length < 6 then some g
  else
    match lineRecord line with
    | none => none
    | some (i1, j1, k1, vx, vy, vz) =>
      match npIdx g.nx (i1 - 1), npIdx g.ny (j1 - 1), npIdx g.nz (k1 - 1) with
      | some a, some b, some c =>
        some { g with px := Function.update g.px (a, b, c) vx,
                      py := Function.update g.py (a, b, c) vy,
                      pz := Function.update g.pz (a, b, c) vz }
      | _, _, _ => none

def foldData (g : Grid) : List String → Option Grid
  | [] => some g
  | l :: ls =>
    match processDataLine g l with
    | none => none
    | some g' => foldData g' ls

/-- The tokenised header line of a chunk file (`f.readline().split()`;
a missing first line reads as the empty string). -/
def headerOf (lines : List String) : List String :=
  pySplit (lines.headD "")

/-- Process one chunk file: reject a header of fewer than 3 tokens; on the
first chunk (`pxx is None`) parse the dimensions and allocate the
zero-filled grid (`np.zeros` raises on a negative dimension); then fold the
remaining data lines. -/
def processChunk (gOpt : Option Grid) (lines : List String) : Option Grid :=
  if (headerOf lines).length < 3 then none
  else
    match gOpt with
    | some g => foldData g lines.tail
    | none =>
      match headerOf lines with
      | a :: b :: c :: _ =>
        match pyInt a, pyInt b, pyInt c with
        | some nxi, some nyi, some nzi =>
          if nxi < 0 ∨ nyi < 0 ∨ nzi < 0 then none
          else
            foldData
              ⟨nxi.toNat, nyi.toNat, nzi.toNat, fun _ => PyVal.fin 0, fun _ => PyVal.fin 0, fun _ => PyVal.fin 0⟩
              lines.tail
        | _, _, _ => none
      | _ => none

/-- The `for chunk in range(NUM_CHUNKS)` loop: a missing file
(`os.path.isfile` false) returns `False`, as does any failure inside
`processChunk`.  The outer `none` is abort, `some g` the state after the
listed ranks. -/
def processChunks (fs : ℕ → Option (List String)) (fstep : ℕ) :
    List ℕ → Option Grid → Option (Option Grid)
  | [], g => some g
  | r :: rs, g =>
    match fs (fstep + r) with
    | none => none
    | some lines =>
      match processChunk g lines with
      | none => none
      | some g' => processChunks fs fstep rs (some g')

/-- Decimal digit characters of `n`, zero-padded on the left to width `k`. -/
def padDigits (k n : ℕ) : List Char :=
  (List.range k).map (fun p => Nat.digitChar (n / 10 ^ (k - 1 - p) % 10))

/-- Number of decimal digits, computed with `n` as structural fuel. -/
def numDigitsAux : ℕ → ℕ → ℕ
  | 0, _ => 1
  | fuel + 1, n => if n < 10 then 1 else numDigitsAux fuel (n / 10) + 1

def numDigits (n : ℕ) : ℕ := numDigitsAux n n

/-- Python `str(n)` for a natural number. -/
def natRepr (n : ℕ) : String := String.mk (padDigits (numDigits n) n)

/-- Scientific-notation character assembly: sign, leading digit of the
6-digit mantissa `m`, point, the five remaining mantissa digits, `e`, the
exponent's sign and its at-least-two digits. -/
def sciParts (sign : Bool) (m : ℤ) (e : ℤ) : List Char :=
  (if sign then ['-'] else []) ++ [Nat.digitChar (m.toNat / 10 ^ 5)] ++ ['.'] ++
    padDigits 5 (m.toNat % 10 ^ 5) ++ ['e'] ++ (if e < 0 then ['-'] else ['+']) ++
    padDigits (max 2 (numDigits e.natAbs)) e.natAbs

/-- The character list behind Python `f"{v:.5e}"` on a finite value:
mantissa normalised to `[1, 10)` by the base-10 logarithm, rounded to five
fractional digits, with the carry into the next decade handled explicitly.
(Tie-rounding of the real program happens on binary floats; the printed
shape, which is all the verified claims use, is identical.) -/
def fmt5eFin (q : ℚ) : List Char :=
  if q = 0 then ['0', '.', '0', '0', '0', '0', '0', 'e', '+', '0', '0']
  else if round (|q| * (10 : ℚ) ^ ((5 : ℤ) - Int.log 10 |q|)) = 10 ^ 6 then
    sciParts (decide (q < 0)) ((10 : ℤ) ^ 5) (Int.log 10 |q| + 1)
  else
    sciParts (decide (q < 0))
      (round (|q| * (10 : ℚ) ^ ((5 : ℤ) - Int.log 10 |q|))) (Int.log 10 |q|)

/-- Python `f"{v:.5e}"`: CPython prints the special values as `inf`,
`-inf` and `nan` (a NaN's sign is dropped). -/
def fmt5eChars : PyVal → List Char
  | .fin q => fmt5eFin q
  | .inf neg => if neg then ['-', 'i', 'n', 'f'] else ['i', 'n', 'f']
  | .nan => ['n', 'a', 'n']

def format5e (v : PyVal) : String := String.mk (fmt5eChars v)

/-- Single-space token joining, as in the `f"{a} {b} ... "` templates. -/
def joinTokens : List String → String
  | [] => ""
  | t :: ts =>
    match ts with
    | [] => t
    | _ :: _ => t ++ " " ++ joinTokens ts

/-- One output line of `pxyz.in`: the space-joined tokens plus the newline
the source's `f.write(f"... \n")` appends. -/
def renderLine (ts : List String) : String :=
  joinTokens ts ++ "\n"

/-- The first output line `f"{nx} {ny} {nz}\n"`. -/
def headerLine (nx ny nz : ℕ) : String :=
  natRepr nx ++ " " ++ natRepr ny ++ " " ++ natRepr nz ++ "\n"

/-- The token lists of the data lines of `pxyz.in`, in the source's nested
loop order: outer `i`, middle `j`, inner `k`, 1-indexed. -/
def restartTokenLines (g : Grid) : List (List String) :=
  (List.range g.nx).flatMap (fun i =>
    (List.range g.ny).flatMap (fun j =>
      (List.range g.nz).map (fun k =>
        [natRepr (i + 1), natRepr (j + 1), natRepr (k + 1),
         format5e (g.px (i, j, k)), format5e (g.py (i, j, k)),
         format5e (g.pz (i, j, k))])))

/-- The full content written to `pxyz.in`. -/
def renderRestart (g : Grid) : String :=
  headerLine g.nx g.ny g.nz ++ String.join ((restartTokenLines g).map renderLine)

/-- The state after the chunk-scanning loop of `extract_final_state`:
`none` = some chunk aborted the scan, `some none` = loop body never ran
(zero chunks), `some (some g)` = assembled grid. -/
def extractGrid (numChunks : ℕ) (fs : ℕ → Option (List String)) (fstep : ℕ) :
    Option (Option Grid) :=
  processChunks fs fstep (List.range numChunks) none

/-- `extract_final_state`.  First component: the function's boolean return.
Second component: what was written to `pxyz.in` (`none` = the file was
neither created nor modified — every abort of the scan happens before
`open('pxyz.in', 'w')`).  With zero chunks the dimensions are still `None`
and the write loop raises `TypeError` after emitting the header, leaving a
partial file; that path is included for fidelity. -/
def extract_final_state (numChunks : ℕ) (fs : ℕ → Option (List String))
    (fstep : ℕ) : Bool × Option String :=
  match extractGrid numChunks fs fstep with
  | none => (false, none)
  | some none => (false, some "None None None\n")
  | some (some g) => (true, some (renderRestart g))

/-- The assembled grid, defaulting to the empty grid off the success path. -/
def extractGridD (numChunks : ℕ) (fs : ℕ → Option (List String)) (fstep : ℕ) :
    Grid :=
  match extractGrid numChunks fs fstep with
  | some (some g) => g
  | _ => ⟨0, 0, 0, fun _ => PyVal.fin 0, fun _ => PyVal.fin 0, fun _ => PyVal.fin 0⟩

/-! ### `run_sequential_steps` (lines 289-326) and config constants -/

/-- `CONFIG['NUM_CHUNKS']` of src/config.py. -/
def NUM_CHUNKS : ℕ := 20

/-- The five stages of one step, in execution order. -/
inductive Stage where
  | modifyStage
  | submitStage
  | waitStage
  | extractStage
  | backupStage
deriving DecidableEq

/-- One performed stage of the run: which step (1-based) and which stage. -/
structure Ev where
  step : ℕ
  stage : Stage
deriving DecidableEq

/-- Which stage's failure branch halted the run (`return False`). -/
inductive StageReason where
  | submitFailed
  | waitFailed
  | extractFailed
deriving DecidableEq

/-- Terminal state of the run: all steps done; halted by a failure branch;
blocked forever in the wait loop; or crashed by an uncaught exception. -/
inductive RunOutcome where
  | completed
  | halted (k : ℕ) (r : StageReason)
  | blocked (k : ℕ)
  | crashed (k : ℕ)
deriving DecidableEq

/-- The external inputs one step of the run consumes: the parameter file's
content at edit time, the parsed edit set, the scheduler's submit response,
the poll history, and the chunk filesystem with the step's `final_step`. -/
structure StepInput where
  fileContent : String
  params : List (ℤ × String)
  submitRes : SubmitResult
  polls : List QueryResult
  chunkFs : ℕ → Option (List String)
  finalStep : ℕ

/-- The events of one fully completed step. -/
def fullEvents (k : ℕ) : List Ev :=
  [⟨k, .modifyStage⟩, ⟨k, .submitStage⟩, ⟨k, .waitStage⟩,
   ⟨k, .extractStage⟩, ⟨k, .backupStage⟩]

/-- The `for step_idx, step_config in enumerate(STEPS, 1)` loop from step
index `k` on, returning the performed stages, the step indices whose backup
directories were created, and the terminal outcome. -/
def run_sequential_steps_from : ℕ → List StepInput → List Ev × List ℕ × RunOutcome
  | _, [] => ([], [], .completed)
  | k, s :: rest =>
    match modify_input_params s.fileContent s.params with
    | none => ([⟨k, .modifyStage⟩], [], .crashed k)
    | some _ =>
      match submit_job s.submitRes with
      | none => ([⟨k, .modifyStage⟩, ⟨k, .submitStage⟩], [], .halted k .submitFailed)
      | some jid =>
        match wait_for_job_completion jid s.polls with
        | none =>
          ([⟨k, .modifyStage⟩, ⟨k, .submitStage⟩, ⟨k, .waitStage⟩], [], .blocked k)
        | some false =>
          ([⟨k, .modifyStage⟩, ⟨k, .submitStage⟩, ⟨k, .waitStage⟩], [],
           .halted k .waitFailed)
        | some true =>
          if (extract_final_state NUM_CHUNKS s.chunkFs s.finalStep).1 then
            match run_sequential_steps_from (k + 1) rest with
            | (evs, bks, out) => (fullEvents k ++ evs, k :: bks, out)
          else
            ([⟨k, .modifyStage⟩, ⟨k, .submitStage⟩, ⟨k, .waitStage⟩,
              ⟨k, .extractStage⟩], [], .halted k .extractFailed)

def run_sequential_steps (steps : List StepInput) : List Ev × List ℕ × RunOutcome :=
  run_sequential_steps_from 1 steps

/-- All five stages of a step run and report success. -/
def stepSucceeds (s : StepInput) : Prop :=
  (modify_input_params s.fileContent s.params).isSome ∧
  (∃ jid, submit_job s.submitRes = some jid ∧
    wait_for_job_completion jid s.polls = some true) ∧
  (extract_final_state NUM_CHUNKS s.chunkFs s.finalStep).1 = true

/-- The step's first failure is the given stage's failure branch. -/
def failsAt (s : StepInput) : StageReason → Prop
  | .submitFailed =>
    (modify_input_params s.fileContent s.params).isSome ∧
    submit_job s.submitRes = none
  | .waitFailed =>
    (modify_input_params s.fileContent s.params).isSome ∧
    ∃ jid, submit_job s.submitRes = some jid ∧
      wait_for_job_completion jid s.polls = some false
  | .extractFailed =>
    (modify_input_params s.fileContent s.params).isSome ∧
    ∃ jid, submit_job s.submitRes = some jid ∧
      wait_for_job_completion jid s.polls = some true ∧
      (extract_final_state NUM_CHUNKS s.chunkFs s.finalStep).1 = false

/-- The stages of step `k` that still run when it halts for reason `r`. -/
def haltEvents (k : ℕ) : StageReason → List Ev
  | .submitFailed => [⟨k, .modifyStage⟩, ⟨k, .submitStage⟩]
  | .waitFailed => [⟨k, .modifyStage⟩, ⟨k, .submitStage⟩, ⟨k, .waitStage⟩]
  | .extractFailed =>
    [⟨k, .modifyStage⟩, ⟨k, .submitStage⟩, ⟨k, .waitStage⟩, ⟨k, .extractStage⟩]

/-- The events of `n` consecutive fully completed steps starting at `k`. -/
def allFull (k n : ℕ) : List Ev :=
  (List.range' k n).flatMap fullEvents

/-! ## Basic lemmas about the job monitor -/

/-- The wait loop's only `return` statement returns `True`. -/
theorem wait_returns_true (jid : String) (polls : List QueryResult) (b : Bool)
    (h : wait_for_job_completion jid polls = some b) : b = true := by
  induction polls with
  | nil => simp [wait_for_job_completion] at h
  | cons q rest ih =>
    by_cases hc : check_job_status jid q
    · rw [wait_for_job_completion, if_pos hc] at h
      exact ih h
    · rw [wait_for_job_completion, if_neg hc] at h
      exact (Option.some_inj.mp h).symm

/-! ## Lemmas about the parameter editor -/

theorem applyEdit_length (ls ls' : List String) (n : ℤ) (c : String)
    (h : applyEdit ls n c = some ls') : ls'.length = ls.length := by
  unfold applyEdit at h
  cases hi : npIdx ls.length (n - 1) with
  | none => rw [hi] at h; cases h
  | some i =>
    rw [hi] at h
    cases h
    exact List.length_set ..

theorem applyEdit_oob (ls : List String) (n : ℤ) (c : String)
    (h : (ls.length : ℤ) < n) : applyEdit ls n c = none := by
  unfold applyEdit npIdx
  have h1 : 0 ≤ n - 1 := by omega
  have h2 : ¬ (n - 1 < (ls.length : ℤ)) := by omega
  simp [h1, h2]

/-! ## Claim theorems (monitor and editor) -/

/-- **C4**: a scheduler status query that raises is logged as a warning and
interpreted as job-absent: `check_job_status` returns `False`, and
`wait_for_job_completion` consequently declares the job complete on that
very poll. -/
theorem c4_query_error_is_completion (jid msg : String) (rest : List QueryResult) :
    check_job_status jid (QueryResult.exn msg) = false ∧
    check_job_status_logs (QueryResult.exn msg) =
      ["WARNING: Error checking job status: " ++ msg] ∧
    wait_for_job_completion jid (QueryResult.exn msg :: rest) = some true := by
  refine ⟨rfl, rfl, ?_⟩
  rw [wait_for_job_completion, if_neg]
  simp [check_job_status]

/-- **C9**: whenever `wait_for_job_completion` returns, it returns `True`;
consequently the orchestrator can never halt with the wait stage's failure
reason — that failure branch is unreachable. -/
theorem c9_wait_stage_never_halts :
    (∀ (jid : String) (polls : List QueryResult) (b : Bool),
        wait_for_job_completion jid polls = some b → b = true) ∧
    (∀ (k0 : ℕ) (steps : List StepInput) (k : ℕ),
        (run_sequential_steps_from k0 steps).2.2 ≠
          RunOutcome.halted k StageReason.waitFailed) := by
  refine ⟨fun jid polls b h => wait_returns_true jid polls b h, ?_⟩
  intro k0 steps
  induction steps generalizing k0 with
  | nil => intro k; simp [run_sequential_steps_from]
  | cons s rest ih =>
    intro k
    rw [run_sequential_steps_from]
    cases hm : modify_input_params s.fileContent s.params with
    | none => simp
    | some v =>
      cases hs : submit_job s.submitRes with
      | none => simp
      | some jid =>
        cases hw : wait_for_job_completion jid s.polls with
        | none => simp [hw]
        | some b =>
          have hb := wait_returns_true jid s.polls b hw
          subst hb
          cases he : (extract_final_state NUM_CHUNKS s.chunkFs s.finalStep).1 with
          | false => simp [hw, he]
          | true =>
            simp only [hw, he, if_true]
            simpa using ih (k0 + 1) k

/-- Witness for C9 at a concrete poll history and step list. -/
theorem c9_wait_stage_never_halts_witness :
    (true = true) ∧
    (run_sequential_steps_from 1 [] ).2.2 ≠
      RunOutcome.halted 1 StageReason.waitFailed :=
  ⟨c9_wait_stage_never_halts.1 "17" [QueryResult.exn "squeue broke"] true (by decide),
   c9_wait_stage_never_halts.2 1 [] 1⟩

/-- **C7**: an edit whose requested line number exceeds the file's line count
makes `modify_input_params` raise (`none`), and since the write happens only
after all edits, the file is not rewritten. -/
theorem c7_oob_edit_fails (content : String) (params : List (ℤ × String))
    (n : ℤ) (c : String) (hmem : (n, c) ∈ params)
    (hn : ((pyReadlines content).length : ℤ) < n) :
    modify_input_params content params = none := by
  suffices h : ∀ (ps : List (ℤ × String)) (ls : List String), (n, c) ∈ ps →
      ((ls.length : ℤ) < n) →
      ps.foldlM (fun ls p => applyEdit ls p.1 p.2) ls = none by
    unfold modify_input_params
    rw [h params _ hmem hn]
    rfl
  intro ps
  induction ps with
  | nil => intro ls hm; cases hm
  | cons p ps ih =>
    intro ls hm hlen
    rw [List.foldlM_cons]
    rcases List.mem_cons.mp hm with hm | hm
    · cases hm
      rw [applyEdit_oob ls n c hlen]
      rfl
    · cases happ : applyEdit ls p.1 p.2 with
      | none => rfl
      | some ls' =>
        have hlen' : ((ls'.length : ℤ) < n) := by
          rw [applyEdit_length ls ls' p.1 p.2 happ]; exact hlen
        simpa using ih ls' hm hlen'

/-- Witness for C7 on a two-line file and line number 5. -/
theorem c7_oob_edit_fails_witness :
    ((5 : ℤ), "y") ∈ [((5 : ℤ), "y")] ∧
    ((pyReadlines "a\nb\n").length : ℤ) < 5 ∧
    modify_input_params "a\nb\n" [((5 : ℤ), "y")] = none :=
  ⟨by decide, by decide,
   c7_oob_edit_fails "a\nb\n" [((5 : ℤ), "y")] 5 "y" (by decide) (by decide)⟩

/-- **C10**: an edit with requested line number 0 does not fail on a
non-empty file — through Python's negative indexing (`lines[-1]`) it is
silently applied to the last line; out-of-range detection only covers
indices beyond the line count. -/
theorem c10_line_zero_edits_last_line (content newContent : String)
    (h : pyReadlines content ≠ []) :
    modify_input_params content [((0 : ℤ), newContent)] =
      some (pyWritelines ((pyReadlines content).set ((pyReadlines content).length - 1)
        (editLine newContent
          ((pyReadlines content).getD ((pyReadlines content).length - 1) "")))) := by
  have hl : 1 ≤ (pyReadlines content).length := by
    cases hpc : pyReadlines content with
    | nil => exact absurd hpc h
    | cons a t => simp
  unfold modify_input_params
  rw [List.foldlM_cons]
  have happ : applyEdit (pyReadlines content) 0 newContent =
      some ((pyReadlines content).set ((pyReadlines content).length - 1)
        (editLine newContent
          ((pyReadlines content).getD ((pyReadlines content).length - 1) ""))) := by
    unfold applyEdit npIdx
    have h1 : ¬ ((0 : ℤ) ≤ 0 - 1) := by omega
    have h2 : (0 : ℤ) ≤ 0 - 1 + ((pyReadlines content).length : ℤ) := by omega
    have h3 : ((0 : ℤ) - 1 + ((pyReadlines content).length : ℤ)).toNat =
        (pyReadlines content).length - 1 := by omega
    rw [if_neg h1, if_pos h2, h3]
  rw [happ]
  simp [List.foldlM_nil]

/-- Witness for C10 on a concrete two-line file. -/
theorem c10_line_zero_edits_last_line_witness :
    pyReadlines "a\nb\n" ≠ [] ∧
    modify_input_params "a\nb\n" [((0 : ℤ), "new")] =
      some (pyWritelines ((pyReadlines "a\nb\n").set ((pyReadlines "a\nb\n").length - 1)
        (editLine "new"
          ((pyReadlines "a\nb\n").getD ((pyReadlines "a\nb\n").length - 1) "")))) :=
  ⟨by decide, c10_line_zero_edits_last_line "a\nb\n" "new" (by decide)⟩

/-! ## Orchestrator halting lemmas -/

/-- A step that fully succeeds performs all five stages and hands control to
the next step. -/
theorem run_from_cons_succeeds (k : ℕ) (s : StepInput) (rest : List StepInput)
    (h : stepSucceeds s) :
    run_sequential_steps_from k (s :: rest) =
      (fullEvents k ++ (run_sequential_steps_from (k + 1) rest).1,
       k :: (run_sequential_steps_from (k + 1) rest).2.1,
       (run_sequential_steps_from (k + 1) rest).2.2) := by
  obtain ⟨hm, ⟨jid, hs, hw⟩, he⟩ := h
  obtain ⟨v, hv⟩ := Option.isSome_iff_exists.mp hm
  rw [run_sequential_steps_from]
  simp only [hv, hs, hw, he, if_true]

/-- A step whose first failure is stage `r` halts the run there, with only
the stages up to and including `r` performed. -/
theorem run_from_cons_fails (k : ℕ) (s : StepInput) (rest : List StepInput)
    (r : StageReason) (h : failsAt s r) :
    run_sequential_steps_from k (s :: rest) =
      (haltEvents k r, [], RunOutcome.halted k r) := by
  cases r with
  | submitFailed =>
    obtain ⟨hm, hs⟩ := h
    obtain ⟨v, hv⟩ := Option.isSome_iff_exists.mp hm
    rw [run_sequential_steps_from]
    simp only [hv, hs, haltEvents]
  | waitFailed =>
    obtain ⟨hm, jid, hs, hw⟩ := h
    obtain ⟨v, hv⟩ := Option.isSome_iff_exists.mp hm
    rw [run_sequential_steps_from]
    simp only [hv, hs, hw, haltEvents]
  | extractFailed =>
    obtain ⟨hm, jid, hs, hw, he⟩ := h
    obtain ⟨v, hv⟩ := Option.isSome_iff_exists.mp hm
    rw [run_sequential_steps_from]
    simp only [hv, hs, hw, he, haltEvents, if_false, Bool.false_eq_true]

theorem allFull_succ (k n : ℕ) :
    allFull k (n + 1) = fullEvents k ++ allFull (k + 1) n := by
  rw [allFull, List.range'_succ, List.flatMap_cons]
  rfl

/-- Exact trace of a run whose first `pre.length` steps succeed and whose
next step first fails at stage `r`: the preceding steps run all stages and
create their backups, step `pre.length`-plus-one runs only the stages up to
`r`, nothing later runs, and the run halts. -/
theorem run_from_halt (pre : List StepInput) (sk : StepInput)
    (post : List StepInput) (r : StageReason) (k : ℕ)
    (hpre : ∀ s ∈ pre, stepSucceeds s) (hf : failsAt sk r) :
    run_sequential_steps_from k (pre ++ sk :: post) =
      (allFull k pre.length ++ haltEvents (k + pre.length) r,
       List.range' k pre.length, RunOutcome.halted (k + pre.length) r) := by
  induction pre generalizing k with
  | nil =>
    simp only [List.nil_append, List.length_nil, Nat.add_zero]
    rw [run_from_cons_fails k sk post r hf]
    simp [allFull]
  | cons s pre' ih =>
    have hs : stepSucceeds s := hpre s (List.mem_cons_self s pre')
    have hpre' : ∀ x ∈ pre', stepSucceeds x :=
      fun x hx => hpre x (List.mem_cons_of_mem s hx)
    rw [List.cons_append, run_from_cons_succeeds k s (pre' ++ sk :: post) hs,
        ih (k + 1) hpre']
    simp only [List.length_cons]
    rw [show k + (pre'.length + 1) = k + 1 + pre'.length from by omega,
        allFull_succ, List.range'_succ, List.append_assoc]

/-- Every event of `allFull k n` belongs to a step in `[k, k + n)`. -/
theorem allFull_step_bounds (k n : ℕ) (e : Ev) (h : e ∈ allFull k n) :
    k ≤ e.step ∧ e.step < k + n := by
  induction n generalizing k with
  | zero => simp [allFull] at h
  | succ n ih =>
    rw [allFull_succ] at h
    rcases List.mem_append.mp h with h | h
    · have : e.step = k := by
        simp only [fullEvents, List.mem_cons, List.not_mem_nil, or_false] at h
        rcases h with h | h | h | h | h <;> subst h <;> rfl
      omega
    · have := ih (k + 1) h
      omega

theorem haltEvents_step (k : ℕ) (r : StageReason) (e : Ev)
    (h : e ∈ haltEvents k r) : e.step = k := by
  cases r with
  | submitFailed =>
    simp only [haltEvents, List.mem_cons, List.not_mem_nil, or_false] at h
    rcases h with rfl | rfl <;> rfl
  | waitFailed =>
    simp only [haltEvents, List.mem_cons, List.not_mem_nil, or_false] at h
    rcases h with rfl | rfl | rfl <;> rfl
  | extractFailed =>
    simp only [haltEvents, List.mem_cons, List.not_mem_nil, or_false] at h
    rcases h with rfl | rfl | rfl | rfl <;> rfl

theorem fullEvents_nodup (k : ℕ) : (fullEvents k).Nodup := by
  simp [fullEvents, Ev.mk.injEq]

theorem haltEvents_nodup (k : ℕ) (r : StageReason) : (haltEvents k r).Nodup := by
  cases r <;> simp [haltEvents, Ev.mk.injEq]

theorem allFull_nodup (k n : ℕ) : (allFull k n).Nodup := by
  induction n generalizing k with
  | zero => simp [allFull]
  | succ n ih =>
    rw [allFull_succ, List.nodup_append]
    refine ⟨fullEvents_nodup k, ih (k + 1), ?_⟩
    intro e he he'
    have h1 : e.step = k := by
      simp only [fullEvents, List.mem_cons, List.not_mem_nil, or_false] at he
      rcases he with h | h | h | h | h <;> subst h <;> rfl
    have h2 := allFull_step_bounds (k + 1) n e he'
    omega

/-- **C3**: if every step before step `k` succeeds and a stage of step `k`
fails (submit, wait or extract reports failure), the run halts at step `k`:
the trace is exactly the full stage lists of steps `1 .. k-1` followed by
step `k`'s stages up to the failing one, so no stage of step `k` after the
failure, no stage of a later step, and no repeated stage is performed, and
exactly the backups of steps `1 .. k-1` were created and remain. -/
theorem c3_halts_at_first_failing_stage (pre : List StepInput) (sk : StepInput)
    (post : List StepInput) (r : StageReason)
    (hpre : ∀ s ∈ pre, stepSucceeds s) (hf : failsAt sk r) :
    run_sequential_steps (pre ++ sk :: post) =
      (allFull 1 pre.length ++ haltEvents (1 + pre.length) r,
       List.range' 1 pre.length, RunOutcome.halted (1 + pre.length) r) ∧
    (∀ e ∈ allFull 1 pre.length ++ haltEvents (1 + pre.length) r,
       e.step ≤ 1 + pre.length) ∧
    (allFull 1 pre.length ++ haltEvents (1 + pre.length) r).Nodup := by
  refine ⟨run_from_halt pre sk post r 1 hpre hf, ?_, ?_⟩
  · intro e he
    rcases List.mem_append.mp he with h | h
    · have := allFull_step_bounds 1 pre.length e h
      omega
    · rw [haltEvents_step (1 + pre.length) r e h]
  · rw [List.nodup_append]
    refine ⟨allFull_nodup 1 pre.length, haltEvents_nodup (1 + pre.length) r, ?_⟩
    intro e he he'
    have h1 := allFull_step_bounds 1 pre.length e he
    have h2 := haltEvents_step (1 + pre.length) r e he'
    omega

/-- A step input whose submit stage fails (used by witnesses). -/
def failStepExample : StepInput :=
  ⟨"a\n", [], SubmitResult.err, [], fun _ => none, 0⟩

/-- Witness for C3: a one-step run whose submit stage fails. -/
theorem c3_halts_at_first_failing_stage_witness :
    failsAt failStepExample StageReason.submitFailed ∧
    run_sequential_steps ([] ++ failStepExample :: []) =
      (allFull 1 (0 : ℕ) ++ haltEvents (1 + 0) StageReason.submitFailed,
       List.range' 1 0, RunOutcome.halted (1 + 0) StageReason.submitFailed) := by
  have hp : ∀ s ∈ ([] : List StepInput), stepSucceeds s :=
    fun s hs => absurd hs (List.not_mem_nil s)
  have hf : failsAt failStepExample StageReason.submitFailed := ⟨by decide, rfl⟩
  exact ⟨hf, (c3_halts_at_first_failing_stage [] failStepExample []
    StageReason.submitFailed hp hf).1⟩

/-- **C8**: a zero-exit submit whose acknowledgment lacks the marker phrase
`Submitted batch job` logs a warning and returns no identifier, and the
orchestrator then halts the run at the current step with the submit stage's
failure; when the marker is present, the trailing whitespace token of the
(stripped) output is returned as the job identifier. -/
theorem c8_unparsable_ack (out : String) (pre : List StepInput) (sk : StepInput)
    (post : List StepInput)
    (hpre : ∀ s ∈ pre, stepSucceeds s)
    (hm : (modify_input_params sk.fileContent sk.params).isSome)
    (hs : sk.submitRes = SubmitResult.ok out) :
    (containsSubstr (pyStrip out) sbatchMarker = false →
       submit_job (SubmitResult.ok out) = none ∧
       submit_job_logs (SubmitResult.ok out) =
         ["WARNING: Unexpected sbatch output: " ++ pyStrip out] ∧
       (run_sequential_steps (pre ++ sk :: post)).2.2 =
         RunOutcome.halted (1 + pre.length) StageReason.submitFailed) ∧
    (containsSubstr (pyStrip out) sbatchMarker = true →
       submit_job (SubmitResult.ok out) = some ((pySplit (pyStrip out)).getLastD "")) := by
  constructor
  · intro hmk
    have hnone : submit_job (SubmitResult.ok out) = none := by
      simp [submit_job, hmk]
    refine ⟨hnone, by simp [submit_job_logs, hmk], ?_⟩
    have hf : failsAt sk StageReason.submitFailed := ⟨hm, by rw [hs]; exact hnone⟩
    rw [run_sequential_steps, run_from_halt pre sk post StageReason.submitFailed 1 hpre hf]
  · intro hmk
    simp [submit_job, hmk]

/-- A step input whose submit call exits 0 with unparsable output. -/
def badAckStepExample : StepInput :=
  ⟨"a\n", [], SubmitResult.ok "weird output", [], fun _ => none, 0⟩

/-- A step input whose submit call acknowledges with the marker phrase. -/
def okAckStepExample : StepInput :=
  ⟨"a\n", [], SubmitResult.ok "Submitted batch job 42\n", [], fun _ => none, 0⟩

/-- Witness for C8 at a markerless and a markered acknowledgment. -/
theorem c8_unparsable_ack_witness :
    submit_job (SubmitResult.ok "weird output") = none ∧
    submit_job_logs (SubmitResult.ok "weird output") =
      ["WARNING: Unexpected sbatch output: " ++ pyStrip "weird output"] ∧
    (run_sequential_steps ([] ++ badAckStepExample :: [])).2.2 =
      RunOutcome.halted (1 + 0) StageReason.submitFailed ∧
    submit_job (SubmitResult.ok "Submitted batch job 42\n") =
      some ((pySplit (pyStrip "Submitted batch job 42\n")).getLastD "") := by
  have hnil : ∀ s ∈ ([] : List StepInput), stepSucceeds s :=
    fun s hs => absurd hs (List.not_mem_nil s)
  have h1 := (c8_unparsable_ack "weird output" [] badAckStepExample []
    hnil (by decide) rfl).1 (by decide)
  have h2 := (c8_unparsable_ack "Submitted batch job 42\n" [] okAckStepExample []
    hnil (by decide) rfl).2 (by decide)
  exact ⟨h1.1, h1.2.1, h1.2.2, h2⟩

/-! ## The readlines/writelines round trip -/

/-- A character line with its newline terminator and no interior newline. -/
def midChars (l : List Char) : Prop :=
  ∃ body, l = body ++ ['\n'] ∧ '\n' ∉ body

/-- A final character line: terminated, or newline-free and non-empty. -/
def lastChars (l : List Char) : Prop :=
  midChars l ∨ (l ≠ [] ∧ '\n' ∉ l)

/-- All lines before the last are properly terminated. -/
def MidAllC (ls : List (List Char)) : Prop :=
  ∀ i, i + 1 < ls.length → midChars (ls.getD i [])

/-- The last line, when present, is a valid final line. -/
def LastOkC (ls : List (List Char)) : Prop :=
  ∀ i, i + 1 = ls.length → lastChars (ls.getD i [])

theorem readAux_mid (body : List Char) (rest : List Char) (acc : List Char)
    (h : '\n' ∉ body) :
    pyReadlinesAux acc (body ++ '\n' :: rest) =
      (acc.reverse ++ body ++ ['\n']) :: pyReadlinesAux [] rest := by
  induction body generalizing acc with
  | nil => simp [pyReadlinesAux]
  | cons c b ih =>
    have hc : ¬ (c = '\n') := fun hcc => h (hcc ▸ List.mem_cons_self c b)
    have hb : '\n' ∉ b := fun hbb => h (List.mem_cons_of_mem c hbb)
    rw [List.cons_append, pyReadlinesAux, if_neg hc, ih (c :: acc) hb]
    simp

theorem readAux_last (body : List Char) (acc : List Char)
    (h : '\n' ∉ body) (hne : acc.reverse ++ body ≠ []) :
    pyReadlinesAux acc body = [acc.reverse ++ body] := by
  induction body generalizing acc with
  | nil =>
    have : acc ≠ [] := by
      intro hx; apply hne; simp [hx]
    rw [pyReadlinesAux, if_neg this]
    simp
  | cons c b ih =>
    have hc : ¬ (c = '\n') := fun hcc => h (hcc ▸ List.mem_cons_self c b)
    have hb : '\n' ∉ b := fun hbb => h (List.mem_cons_of_mem c hbb)
    rw [pyReadlinesAux, if_neg hc, ih (c :: acc) hb (by simp)]
    simp

/-- Full reconstruction: reading back a well-formed line list's concatenation
recovers exactly that line list. -/
theorem readAux_flatten (ls : List (List Char)) (h1 : MidAllC ls) (h2 : LastOkC ls) :
    pyReadlinesAux [] ls.flatten = ls := by
  induction ls with
  | nil => simp [pyReadlinesAux]
  | cons l t ih =>
    cases t with
    | nil =>
      have hl : lastChars l := by
        have := h2 0 (by simp)
        simpa using this
      rw [List.flatten_cons, List.flatten_nil, List.append_nil]
      rcases hl with ⟨body, hb, hnb⟩ | ⟨hne, hnn⟩
      · subst hb
        rw [show body ++ ['\n'] = body ++ '\n' :: [] from rfl,
          readAux_mid body [] [] hnb]
        simp [pyReadlinesAux]
      · rw [readAux_last l [] hnn (by simpa using hne)]
        simp
    | cons l' t' =>
      have hl : midChars l := by
        have := h1 0 (by simp)
        simpa using this
      have h1' : MidAllC (l' :: t') := by
        intro i hi
        have := h1 (i + 1) (by simpa using hi)
        simpa using this
      have h2' : LastOkC (l' :: t') := by
        intro i hi
        have := h2 (i + 1) (by simpa using hi)
        simpa using this
      obtain ⟨body, hb, hnb⟩ := hl
      subst hb
      rw [List.flatten_cons, List.append_assoc, List.singleton_append,
        readAux_mid body ((l' :: t').flatten) [] hnb, ih h1' h2']
      simp

/-- The lines produced by splitting any character stream are well formed. -/
theorem readAux_wf (cs : List Char) : ∀ acc, '\n' ∉ acc →
    MidAllC (pyReadlinesAux acc cs) ∧ LastOkC (pyReadlinesAux acc cs) := by
  induction cs with
  | nil =>
    intro acc hacc
    rw [pyReadlinesAux]
    by_cases hx : acc = []
    · rw [if_pos hx]
      exact ⟨fun i hi => by simp at hi, fun i hi => by simp at hi⟩
    · rw [if_neg hx]
      refine ⟨fun i hi => by simp at hi, fun i hi => ?_⟩
      simp only [List.length_cons, List.length_nil] at hi
      have : i = 0 := by omega
      subst this
      right
      refine ⟨by simpa using hx, by simpa using hacc⟩
  | cons c rest ih =>
    intro acc hacc
    rw [pyReadlinesAux]
    by_cases hc : c = '\n'
    · rw [if_pos hc]
      obtain ⟨ht1, ht2⟩ := ih [] (by simp)
      constructor
      · intro i hi
        cases i with
        | zero =>
          refine ⟨acc.reverse, rfl, by simpa using hacc⟩
        | succ i =>
          have := ht1 i (by simpa using hi)
          simpa using this
      · intro i hi
        cases i with
        | zero =>
          simp only [List.length_cons] at hi
          have hz : (pyReadlinesAux [] rest).length = 0 := by omega
          left
          refine ⟨acc.reverse, rfl, by simpa using hacc⟩
        | succ i =>
          have := ht2 i (by simpa using hi)
          simpa using this
    · rw [if_neg hc]
      exact ih (c :: acc) (by
        intro hmem
        rcases List.mem_cons.mp hmem with h | h
        · exact hc h.symm
        · exact hacc h)

theorem stringMk_toList (s : String) : String.mk s.toList = s := by
  cases s; rfl

/-- `''.join` concatenates the underlying character lists. -/
theorem join_toList (ls : List String) :
    (pyWritelines ls).toList = (ls.map String.toList).flatten := by
  suffices h : ∀ (acc : String) (ls : List String),
      (ls.foldl (fun a b => a ++ b) acc).toList =
        acc.toList ++ (ls.map String.toList).flatten by
    have := h "" ls
    simpa [pyWritelines, String.join] using this
  intro acc ls
  induction ls generalizing acc with
  | nil => simp
  | cons l t ih =>
    rw [List.foldl_cons, ih (acc ++ l)]
    simp [String.toList, String.data_append]

theorem pyReadlines_map_toList (s : String) :
    (pyReadlines s).map String.toList = pyReadlinesAux [] s.toList := by
  rw [pyReadlines, List.map_map]
  have : (String.toList ∘ String.mk) = id := by
    funext l; rfl
  rw [this, List.map_id]

/-- Reading a file and writing the lines back reproduces the file. -/
theorem readlines_wf (s : String) :
    MidAllC ((pyReadlines s).map String.toList) ∧
    LastOkC ((pyReadlines s).map String.toList) := by
  rw [pyReadlines_map_toList]
  exact readAux_wf s.toList [] (by simp)

/-- Writing a well-formed line list and reading it back reproduces it. -/
theorem readlines_join (ls : List String)
    (h1 : MidAllC (ls.map String.toList)) (h2 : LastOkC (ls.map String.toList)) :
    pyReadlines (pyWritelines ls) = ls := by
  rw [pyReadlines, join_toList, readAux_flatten (ls.map String.toList) h1 h2,
    List.map_map]
  have : (String.mk ∘ String.toList) = id := by
    funext x; exact stringMk_toList x
  rw [this, List.map_id]

/-! ## Well-formedness of the edited line -/

theorem dropWhile_append_left {α : Type} (p : α → Bool) (l₁ l₂ : List α)
    (h : ∃ x ∈ l₁, ¬ p x) :
    List.dropWhile p (l₁ ++ l₂) = List.dropWhile p l₁ ++ l₂ := by
  induction l₁ with
  | nil => obtain ⟨x, hx, _⟩ := h; simp at hx
  | cons a t ih =>
    by_cases hp : p a
    · obtain ⟨x, hx, hpx⟩ := h
      rcases List.mem_cons.mp hx with rfl | hx
      · exact absurd hp hpx
      · rw [List.cons_append, List.dropWhile_cons_of_pos hp,
          List.dropWhile_cons_of_pos hp, ih ⟨x, hx, hpx⟩]
    · rw [List.cons_append, List.dropWhile_cons_of_neg hp,
        List.dropWhile_cons_of_neg hp, List.cons_append]

theorem commentOf_toList (old : String) :
    (commentOf old).toList = old.toList.dropWhile (fun ch => ch ≠ '!') := rfl

theorem editLine_mid (c old : String) (hc : '\n' ∉ c.toList)
    (hold : midChars old.toList) : midChars (editLine c old).toList := by
  obtain ⟨body, hb, hnb⟩ := hold
  rw [editLine]
  by_cases hbang : '!' ∈ old.toList
  · rw [if_pos hbang]
    have hbody : '!' ∈ body := by
      rw [hb] at hbang
      rcases List.mem_append.mp hbang with h | h
      · exact h
      · simp at h
    have hdrop : old.toList.dropWhile (fun ch => ch ≠ '!') =
        body.dropWhile (fun ch => ch ≠ '!') ++ ['\n'] := by
      rw [hb]
      exact dropWhile_append_left _ body ['\n'] ⟨'!', hbody, by simp⟩
    refine ⟨c.toList ++ ' ' :: body.dropWhile (fun ch => ch ≠ '!'), ?_, ?_⟩
    · have : (c ++ " " ++ commentOf old).toList =
          c.toList ++ [' '] ++ (commentOf old).toList := by
        simp [String.toList, String.data_append]
      rw [this, commentOf_toList, hdrop]
      simp
    · intro hmem
      rcases List.mem_append.mp hmem with h | h
      · exact hc h
      · rcases List.mem_cons.mp h with h | h
        · exact absurd h.symm (by decide)
        · exact hnb ((List.dropWhile_sublist (fun ch => ch ≠ '!')).mem h)
  · rw [if_neg hbang]
    refine ⟨c.toList, ?_, hc⟩
    simp [String.toList, String.data_append]

theorem editLine_last (c old : String) (hc : '\n' ∉ c.toList)
    (hold : lastChars old.toList) : lastChars (editLine c old).toList := by
  rcases hold with hmid | ⟨hne, hnn⟩
  · exact Or.inl (editLine_mid c old hc hmid)
  · rw [editLine]
    by_cases hbang : '!' ∈ old.toList
    · rw [if_pos hbang]
      right
      constructor
      · simp [String.toList, String.data_append]
      · intro hmem
        have : (c ++ " " ++ commentOf old).toList =
            c.toList ++ [' '] ++ (commentOf old).toList := by
          simp [String.toList, String.data_append]
        rw [this] at hmem
        rcases List.mem_append.mp hmem with h | h
        · rcases List.mem_append.mp h with h | h
          · exact hc h
          · rcases List.mem_cons.mp h with h | h
            · exact absurd h.symm (by decide)
            · simp at h
        · rw [commentOf_toList] at h
          exact hnn ((List.dropWhile_sublist (fun ch => ch ≠ '!')).mem h)
    · rw [if_neg hbang]
      left
      refine ⟨c.toList, ?_, hc⟩
      simp [String.toList, String.data_append]

/-- Well-formedness survives replacing line `i` by a suitably shaped line. -/
theorem wf_set (ls : List (List Char)) (i : ℕ) (x : List Char)
    (h1 : MidAllC ls) (h2 : LastOkC ls)
    (hmid : i + 1 < ls.length → midChars x)
    (hlast : i + 1 = ls.length → lastChars x) :
    MidAllC (ls.set i x) ∧ LastOkC (ls.set i x) := by
  constructor
  · intro j hj
    rw [List.length_set] at hj
    rw [List.getD_eq_getElem?_getD]
    by_cases hij : i = j
    · subst hij
      rw [List.getElem?_set_eq_of_lt x (by omega)]
      simpa using hmid hj
    · rw [List.getElem?_set_ne hij, ← List.getD_eq_getElem?_getD]
      exact h1 j hj
  · intro j hj
    rw [List.length_set] at hj
    rw [List.getD_eq_getElem?_getD]
    by_cases hij : i = j
    · subst hij
      rw [List.getElem?_set_eq_of_lt x (by omega)]
      simpa using hlast hj
    · rw [List.getElem?_set_ne hij, ← List.getD_eq_getElem?_getD]
      exact h2 j hj

/-- Replacing an entry and then deleting it is deleting the original. -/
theorem eraseIdx_set {α : Type} (l : List α) (i : ℕ) (x : α) :
    (l.set i x).eraseIdx i = l.eraseIdx i := by
  induction l generalizing i with
  | nil => rfl
  | cons a t ih =>
    cases i with
    | zero => rfl
    | succ i => simp [List.eraseIdx_cons_succ, ih]

theorem getD_map_toList (ls : List String) (i : ℕ) (hi : i < ls.length) :
    (ls.map String.toList).getD i [] = (ls.getD i "").toList := by
  rw [List.getD_eq_getElem?_getD, List.getD_eq_getElem?_getD, List.getElem?_map]
  cases h : ls[i]? with
  | none =>
    rw [List.getElem?_eq_none_iff] at h
    omega
  | some v => simp

/-- The per-edit result list of a valid single edit. -/
def editedLines (content : String) (n : ℤ) (c : String) : List String :=
  (pyReadlines content).set (n - 1).toNat
    (editLine c ((pyReadlines content).getD (n - 1).toNat ""))

/-- **C5**: a single edit at a valid 1-indexed line number rewrites exactly
that line — re-reading the written file gives the same line list; the edited
line is the new content with the original line's suffix from its first `!`
onward reattached as `<newContent> <comment>` (or the new content with a
newline when there was no comment); every other line is byte-identical and
the line count is unchanged. -/
theorem c5_valid_edit_rewrites_one_line (content : String) (n : ℤ) (c : String)
    (h1 : 1 ≤ n) (h2 : n ≤ ((pyReadlines content).length : ℤ))
    (hc : '\n' ∉ c.toList) :
    modify_input_params content [(n, c)] =
      some (pyWritelines (editedLines content n c)) ∧
    pyReadlines (pyWritelines (editedLines content n c)) = editedLines content n c ∧
    (editedLines content n c).length = (pyReadlines content).length ∧
    (editedLines content n c).eraseIdx (n - 1).toNat =
      (pyReadlines content).eraseIdx (n - 1).toNat ∧
    (editedLines content n c)[(n - 1).toNat]? =
      some (if '!' ∈ ((pyReadlines content).getD (n - 1).toNat "").toList
            then c ++ " " ++ commentOf ((pyReadlines content).getD (n - 1).toNat "")
            else c ++ "\n") := by
  have hlen : (n - 1).toNat < (pyReadlines content).length := by omega
  refine ⟨?_, ?_, ?_, ?_, ?_⟩
  · unfold modify_input_params
    rw [List.foldlM_cons]
    have happ : applyEdit (pyReadlines content) n c = some (editedLines content n c) := by
      unfold applyEdit npIdx
      have ha : (0 : ℤ) ≤ n - 1 := by omega
      have hb : n - 1 < ((pyReadlines content).length : ℤ) := by omega
      rw [if_pos ha, if_pos hb]
      rfl
    rw [happ]
    simp [List.foldlM_nil]
  · obtain ⟨hw1, hw2⟩ := readlines_wf content
    have hmapset : (editedLines content n c).map String.toList =
        ((pyReadlines content).map String.toList).set ((n - 1).toNat)
          (editLine c ((pyReadlines content).getD (n - 1).toNat "")).toList := by
      rw [editedLines, List.map_set]
    have hold : (((pyReadlines content).map String.toList).getD (n - 1).toNat []) =
        ((pyReadlines content).getD (n - 1).toNat "").toList :=
      getD_map_toList _ _ hlen
    have hmid : (n - 1).toNat + 1 < (pyReadlines content).length →
        midChars (editLine c ((pyReadlines content).getD (n - 1).toNat "")).toList := by
      intro hi
      refine editLine_mid c _ hc ?_
      have := hw1 (n - 1).toNat (by simpa using hi)
      rwa [hold] at this
    have hlast : (n - 1).toNat + 1 = (pyReadlines content).length →
        lastChars (editLine c ((pyReadlines content).getD (n - 1).toNat "")).toList := by
      intro hi
      refine editLine_last c _ hc ?_
      have := hw2 (n - 1).toNat (by simpa using hi)
      rwa [hold] at this
    obtain ⟨hs1, hs2⟩ := wf_set ((pyReadlines content).map String.toList)
      (n - 1).toNat (editLine c ((pyReadlines content).getD (n - 1).toNat "")).toList
      hw1 hw2 (by simpa using hmid) (by simpa using hlast)
    refine readlines_join (editedLines content n c) ?_ ?_
    · rwa [hmapset]
    · rwa [hmapset]
  · rw [editedLines, List.length_set]
  · rw [editedLines, eraseIdx_set]
  · rw [editedLines, List.getElem?_set_eq_of_lt _ hlen, editLine]

/-- Witness for C5 on a concrete two-line file with an inline comment. -/
theorem c5_valid_edit_rewrites_one_line_witness :
    ((1 : ℤ) ≤ 1 ∧ (1 : ℤ) ≤ ((pyReadlines "p 3 ! keep\nq\n").length : ℤ) ∧
      '\n' ∉ "x 7".toList) ∧
    (modify_input_params "p 3 ! keep\nq\n" [((1 : ℤ), "x 7")] =
      some (pyWritelines (editedLines "p 3 ! keep\nq\n" 1 "x 7")) ∧
    pyReadlines (pyWritelines (editedLines "p 3 ! keep\nq\n" 1 "x 7")) =
      editedLines "p 3 ! keep\nq\n" 1 "x 7" ∧
    (editedLines "p 3 ! keep\nq\n" 1 "x 7").length =
      (pyReadlines "p 3 ! keep\nq\n").length ∧
    (editedLines "p 3 ! keep\nq\n" 1 "x 7").eraseIdx ((1 : ℤ) - 1).toNat =
      (pyReadlines "p 3 ! keep\nq\n").eraseIdx ((1 : ℤ) - 1).toNat ∧
    (editedLines "p 3 ! keep\nq\n" 1 "x 7")[((1 : ℤ) - 1).toNat]? =
      some (if '!' ∈ ((pyReadlines "p 3 ! keep\nq\n").getD ((1 : ℤ) - 1).toNat "").toList
            then "x 7" ++ " " ++
              commentOf ((pyReadlines "p 3 ! keep\nq\n").getD ((1 : ℤ) - 1).toNat "")
            else "x 7" ++ "\n")) :=
  ⟨⟨by decide, by decide, by decide⟩,
   c5_valid_edit_rewrites_one_line "p 3 ! keep\nq\n" 1 "x 7"
     (by decide) (by decide) (by decide)⟩

/-! ## Extraction abort paths -/

/-- A chunk the scan got past must have existed with an adequate header. -/
theorem processChunks_mem (fs : ℕ → Option (List String)) (fstep : ℕ) :
    ∀ (rs : List ℕ) (g : Option Grid) (st' : Option Grid),
      processChunks fs fstep rs g = some st' →
      ∀ r ∈ rs, ∃ lines, fs (fstep + r) = some lines ∧
        3 ≤ (headerOf lines).length := by
  intro rs
  induction rs with
  | nil => intro g st' h r hr; simp at hr
  | cons r0 rs ih =>
    intro g st' h r hr
    rw [processChunks] at h
    cases hfs : fs (fstep + r0) with
    | none => rw [hfs] at h; cases h
    | some lines =>
      rw [hfs] at h
      dsimp only at h
      cases hpc : processChunk g lines with
      | none => rw [hpc] at h; cases h
      | some g' =>
        rw [hpc] at h
        have hhead : 3 ≤ (headerOf lines).length := by
          by_contra hlt
          rw [processChunk.eq_def, if_pos (by omega)] at hpc
          cases hpc
        rcases List.mem_cons.mp hr with rfl | hr
        · exact ⟨lines, hfs, hhead⟩
        · exact ih (some g') st' h r hr

/-- **C2**: if any expected chunk file (index `final_step + rank`) is absent,
or some chunk's header has fewer than 3 tokens, extraction returns failure
and `pxyz.in` is neither created nor modified (second component `none`: the
abort happens before the restart file is opened for writing). -/
theorem c2_missing_chunk_aborts_without_write (numChunks : ℕ)
    (fs : ℕ → Option (List String)) (fstep : ℕ) (r : ℕ)
    (hr : r < numChunks)
    (hbad : fs (fstep + r) = none ∨
      ∃ lines, fs (fstep + r) = some lines ∧ (headerOf lines).length < 3) :
    extract_final_state numChunks fs fstep = (false, none) := by
  have hnone : extractGrid numChunks fs fstep = none := by
    cases hE : extractGrid numChunks fs fstep with
    | none => rfl
    | some st =>
      exfalso
      obtain ⟨lines, hfs, hhead⟩ := processChunks_mem fs fstep
        (List.range numChunks) none st hE r (List.mem_range.mpr hr)
      rcases hbad with hb | ⟨lines', hb, hshort⟩
      · rw [hb] at hfs; cases hfs
      · rw [hb] at hfs
        cases hfs
        omega
  rw [extract_final_state, hnone]

/-- Witness for C2: one expected chunk file, absent. -/
theorem c2_missing_chunk_aborts_without_write_witness :
    (0 < 1 ∧ ((fun _ => none) : ℕ → Option (List String)) (5 + 0) = none) ∧
    extract_final_state 1 (fun _ => none) 5 = (false, none) :=
  ⟨⟨Nat.zero_lt_one, rfl⟩,
   c2_missing_chunk_aborts_without_write 1 (fun _ => none) 5 0
     Nat.zero_lt_one (Or.inl rfl)⟩

/-! ## Shape of the `%.5e` output -/

/-- Recogniser for an (unsigned) 5-fractional-digit scientific-notation
token: `d.dddddE±ee`, with at least two exponent digits, as in the spec's
example `1.23450e-01`. -/
def sci5Core : List Char → Bool
  | d :: p :: a :: b :: c :: d4 :: e5 :: ech :: sg :: rest =>
    d.isDigit && (p == '.') && a.isDigit && b.isDigit && c.isDigit &&
      d4.isDigit && e5.isDigit && (ech == 'e') && ((sg == '+') || (sg == '-')) &&
      decide (2 ≤ rest.length) && rest.all Char.isDigit
  | _ => false

/-- A 5-fractional-digit scientific-notation token, optionally negated. -/
def isSci5 (s : String) : Bool :=
  sci5Core (if s.toList.headD ' ' = '-' then s.toList.tail else s.toList)

theorem digitChar_isDigit (n : ℕ) (h : n < 10) :
    (Nat.digitChar n).isDigit = true := by
  have : ∀ m, m < 10 → (Nat.digitChar m).isDigit = true := by decide
  exact this n h

theorem digitChar_ne_dash (n : ℕ) (h : n < 10) : Nat.digitChar n ≠ '-' := by
  have : ∀ m, m < 10 → Nat.digitChar m ≠ '-' := by decide
  exact this n h

theorem padDigits_length (k n : ℕ) : (padDigits k n).length = k := by
  simp [padDigits]

theorem padDigits_all_digits (k n : ℕ) :
    (padDigits k n).all Char.isDigit = true := by
  rw [List.all_eq_true]
  intro c hc
  rw [padDigits, List.mem_map] at hc
  obtain ⟨p, _, rfl⟩ := hc
  exact digitChar_isDigit _ (Nat.mod_lt _ (by norm_num))

theorem sci5Core_of_shape (d : Char) (frac : List Char) (sg : Char)
    (ex : List Char) (hd : d.isDigit = true) (hf : frac.length = 5)
    (hfd : frac.all Char.isDigit = true) (hsg : sg = '+' ∨ sg = '-')
    (hex : 2 ≤ ex.length) (hexd : ex.all Char.isDigit = true) :
    sci5Core (d :: '.' :: (frac ++ 'e' :: sg :: ex)) = true := by
  rcases frac with _ | ⟨a, _ | ⟨b, _ | ⟨c, _ | ⟨m4, _ | ⟨m5, _ | ⟨x, t⟩⟩⟩⟩⟩⟩ <;>
    simp only [List.length_nil, List.length_cons] at hf <;> try omega
  obtain ⟨ha, hb, hc', hm4, hm5⟩ : a.isDigit = true ∧ b.isDigit = true ∧
      c.isDigit = true ∧ m4.isDigit = true ∧ m5.isDigit = true := by
    simpa using hfd
  rcases hsg with rfl | rfl <;>
    simp [sci5Core, hd, ha, hb, hc', hm4, hm5, hex, hexd]

theorem isSci5_sciParts (s : Bool) (m : ℤ) (e : ℤ)
    (h1 : 10 ^ 5 ≤ m) (h2 : m < 10 ^ 6) :
    isSci5 (String.mk (sciParts s m e)) = true := by
  have hM1 : 100000 ≤ m.toNat := by omega
  have hM2 : m.toNat < 1000000 := by omega
  have hlead : m.toNat / 10 ^ 5 < 10 := by
    rw [Nat.div_lt_iff_lt_mul (by norm_num)]
    omega
  have hdd : (Nat.digitChar (m.toNat / 10 ^ 5)).isDigit = true :=
    digitChar_isDigit _ hlead
  have hdash : Nat.digitChar (m.toNat / 10 ^ 5) ≠ '-' :=
    digitChar_ne_dash _ hlead
  have hsgl : (if e < 0 then ['-'] else ['+']) = [if e < 0 then '-' else '+'] := by
    split <;> rfl
  have hcore : sci5Core (Nat.digitChar (m.toNat / 10 ^ 5) :: '.' ::
      (padDigits 5 (m.toNat % 10 ^ 5) ++ 'e' :: (if e < 0 then '-' else '+') ::
        padDigits (max 2 (numDigits e.natAbs)) e.natAbs)) = true := by
    refine sci5Core_of_shape _ _ _ _ hdd (padDigits_length 5 _)
      (padDigits_all_digits 5 _) ?_ ?_ (padDigits_all_digits _ _)
    · split
      · exact Or.inr rfl
      · exact Or.inl rfl
    · rw [padDigits_length]
      omega
  cases s with
  | false =>
    have hlist : sciParts false m e =
        Nat.digitChar (m.toNat / 10 ^ 5) :: '.' ::
          (padDigits 5 (m.toNat % 10 ^ 5) ++ 'e' :: (if e < 0 then '-' else '+') ::
            padDigits (max 2 (numDigits e.natAbs)) e.natAbs) := by
      rw [sciParts, if_neg (by simp), hsgl]
      simp
    rw [isSci5]
    have htl : (String.mk (sciParts false m e)).toList = sciParts false m e := rfl
    rw [htl, hlist]
    rw [if_neg (by simpa using hdash)]
    exact hcore
  | true =>
    have hlist : sciParts true m e =
        '-' :: Nat.digitChar (m.toNat / 10 ^ 5) :: '.' ::
          (padDigits 5 (m.toNat % 10 ^ 5) ++ 'e' :: (if e < 0 then '-' else '+') ::
            padDigits (max 2 (numDigits e.natAbs)) e.natAbs) := by
      rw [sciParts, if_pos rfl, hsgl]
      simp
    rw [isSci5]
    have htl : (String.mk (sciParts true m e)).toList = sciParts true m e := rfl
    rw [htl, hlist]
    simp only [List.headD_cons, if_pos rfl, List.tail_cons]
    exact hcore

/-- Every finite value is formatted with the `d.dddddE±ee` shape. -/
theorem isSci5_format5e (q : ℚ) : isSci5 (format5e (PyVal.fin q)) = true := by
  by_cases hq : q = 0
  · subst hq; decide
  · rw [format5e]
    show isSci5 (String.mk (fmt5eFin q)) = true
    rw [fmt5eFin, if_neg hq]
    by_cases hcap : round (|q| * (10 : ℚ) ^ ((5 : ℤ) - Int.log 10 |q|)) = 10 ^ 6
    · rw [if_pos hcap]
      exact isSci5_sciParts _ _ _ (le_refl _) (by norm_num)
    · rw [if_neg hcap]
      have ha : (0 : ℚ) < |q| := abs_pos.mpr hq
      have h1 : ((10 : ℕ) : ℚ) ^ Int.log 10 |q| ≤ |q| :=
        Int.zpow_log_le_self (by norm_num) ha
      have h2 : |q| < ((10 : ℕ) : ℚ) ^ (Int.log 10 |q| + 1) :=
        Int.lt_zpow_succ_log_self (by norm_num) |q|
      have hcast : ((10 : ℕ) : ℚ) = (10 : ℚ) := by norm_num
      rw [hcast] at h1 h2
      have hp : (0 : ℚ) < (10 : ℚ) ^ ((5 : ℤ) - Int.log 10 |q|) :=
        zpow_pos (by norm_num) _
      have hsum1 : (10 : ℚ) ^ (Int.log 10 |q|) *
          (10 : ℚ) ^ ((5 : ℤ) - Int.log 10 |q|) = (10 : ℚ) ^ (5 : ℤ) := by
        rw [← zpow_add₀ (by norm_num : (10 : ℚ) ≠ 0)]
        congr 1
        ring
      have hsum2 : (10 : ℚ) ^ (Int.log 10 |q| + 1) *
          (10 : ℚ) ^ ((5 : ℤ) - Int.log 10 |q|) = (10 : ℚ) ^ (6 : ℤ) := by
        rw [← zpow_add₀ (by norm_num : (10 : ℚ) ≠ 0)]
        congr 1
        ring
      have hx1 : (100000 : ℚ) ≤ |q| * (10 : ℚ) ^ ((5 : ℤ) - Int.log 10 |q|) := by
        calc (100000 : ℚ) = (10 : ℚ) ^ (5 : ℤ) := by norm_num
        _ = (10 : ℚ) ^ (Int.log 10 |q|) * (10 : ℚ) ^ ((5 : ℤ) - Int.log 10 |q|) :=
          hsum1.symm
        _ ≤ |q| * (10 : ℚ) ^ ((5 : ℤ) - Int.log 10 |q|) :=
          mul_le_mul_of_nonneg_right h1 hp.le
      have hx2 : |q| * (10 : ℚ) ^ ((5 : ℤ) - Int.log 10 |q|) < (1000000 : ℚ) := by
        calc |q| * (10 : ℚ) ^ ((5 : ℤ) - Int.log 10 |q|)
            < (10 : ℚ) ^ (Int.log 10 |q| + 1) *
              (10 : ℚ) ^ ((5 : ℤ) - Int.log 10 |q|) :=
          mul_lt_mul_of_pos_right h2 hp
        _ = (10 : ℚ) ^ (6 : ℤ) := hsum2
        _ = (1000000 : ℚ) := by norm_num
      have hr1 : (100000 : ℤ) ≤
          round (|q| * (10 : ℚ) ^ ((5 : ℤ) - Int.log 10 |q|)) := by
        rw [round_eq]
        refine Int.le_floor.mpr ?_
        push_cast
        linarith
      have hr2 : round (|q| * (10 : ℚ) ^ ((5 : ℤ) - Int.log 10 |q|)) ≤ 1000000 := by
        rw [round_eq]
        have hfl := Int.floor_lt.mpr
          (show |q| * (10 : ℚ) ^ ((5 : ℤ) - Int.log 10 |q|) + 1 / 2 <
            ((1000001 : ℤ) : ℚ) by push_cast; linarith)
        omega
      refine isSci5_sciParts _ _ _ (by omega) ?_
      have : round (|q| * (10 : ℚ) ^ ((5 : ℤ) - Int.log 10 |q|)) ≠ 10 ^ 6 := hcap
      omega

/-- A successful extraction's output is the rendering of the grid the chunk
scan assembled. -/
theorem extract_success_render (numChunks : ℕ) (fs : ℕ → Option (List String))
    (fstep : ℕ) (out : String)
    (h : extract_final_state numChunks fs fstep = (true, some out)) :
    extractGrid numChunks fs fstep = some (some (extractGridD numChunks fs fstep)) ∧
    out = renderRestart (extractGridD numChunks fs fstep) := by
  cases hE : extractGrid numChunks fs fstep with
  | none =>
    rw [extract_final_state, hE] at h
    simp at h
  | some og =>
    cases og with
    | none =>
      rw [extract_final_state, hE] at h
      simp at h
    | some g =>
      rw [extract_final_state, hE] at h
      have hout : renderRestart g = out := by
        simpa using h
      have hD : extractGridD numChunks fs fstep = g := by
        rw [extractGridD, hE]
      rw [hD, hout.symm]
      exact ⟨rfl, rfl⟩


/-! ## Well-formed chunk sets and extraction success -/

/-- One data line is harmless for an `nx × ny × nz` grid: it is skipped
(fewer than 6 tokens), or it parses and its 1-indexed triple lies inside
the grid. -/
def goodLine (nx ny nz : ℕ) (l : String) : Bool :=
  if (pySplit l).length < 6 then true
  else
    match lineRecord l with
    | none => false
    | some (i1, j1, k1, _, _, _) =>
      decide (1 ≤ i1 ∧ i1 ≤ (nx : ℤ) ∧ 1 ≤ j1 ∧ j1 ≤ (ny : ℤ) ∧
        1 ≤ k1 ∧ k1 ≤ (nz : ℤ))

/-- A chunk file is well formed for the grid: header of at least 3 tokens
and every data line harmless. -/
def chunkGood (nx ny nz : ℕ) (lines : List String) : Bool :=
  decide (3 ≤ (headerOf lines).length) && lines.tail.all (goodLine nx ny nz)

/-- The chunk's header declares the given dimensions. -/
def firstHeaderIs (lines : List String) (nx ny nz : ℕ) : Bool :=
  match headerOf lines with
  | a :: b :: c :: _ =>
    (pyInt a == some ((nx : ℤ))) && (pyInt b == some ((ny : ℤ))) &&
      (pyInt c == some ((nz : ℤ)))
  | _ => false

/-- The parsed records of one chunk file's data lines. -/
def chunkRecords (lines : List String) : List (ℤ × ℤ × ℤ × PyVal × PyVal × PyVal) :=
  lines.tail.filterMap lineRecord

/-- The records of all chunk files of one extraction, in scan order. -/
def allRecords (numChunks : ℕ) (fs : ℕ → Option (List String)) (fstep : ℕ) :
    List (ℤ × ℤ × ℤ × PyVal × PyVal × PyVal) :=
  (List.range numChunks).flatMap (fun r => chunkRecords ((fs (fstep + r)).getD []))

/-- The 1-indexed grid triples in the write loop's nested order. -/
def allTriples (nx ny nz : ℕ) : List (ℕ × ℕ × ℕ) :=
  (List.range nx).flatMap (fun i =>
    (List.range ny).flatMap (fun j =>
      (List.range nz).map (fun k => (i + 1, j + 1, k + 1))))

/-- The three index tokens of a data line. -/
def tripleTokens (t : ℕ × ℕ × ℕ) : List String :=
  [natRepr t.1, natRepr t.2.1, natRepr t.2.2]

/-- The grid's 1-indexed triples as integers, in nested order. -/
def intTriples (nx ny nz : ℕ) : List (ℤ × ℤ × ℤ) :=
  (allTriples nx ny nz).map (fun t => ((t.1 : ℤ), (t.2.1 : ℤ), (t.2.2 : ℤ)))

/-- The chunk files' records jointly and exactly cover the grid: their
index triples are a permutation of the full index space. -/
def CoversExactly (numChunks : ℕ) (fs : ℕ → Option (List String))
    (fstep nx ny nz : ℕ) : Prop :=
  ((allRecords numChunks fs fstep).map
    (fun rec => (rec.1, rec.2.1, rec.2.2.1))).Perm (intTriples nx ny nz)

theorem processDataLine_short (g : Grid) (l : String)
    (h : (pySplit l).length < 6) : processDataLine g l = some g := by
  rw [processDataLine, if_pos h]

theorem processDataLine_good (g : Grid) (l : String)
    (hg : goodLine g.nx g.ny g.nz l = true) :
    ∃ g', processDataLine g l = some g' ∧ g'.nx = g.nx ∧ g'.ny = g.ny ∧
      g'.nz = g.nz := by
  by_cases hlen : (pySplit l).length < 6
  · exact ⟨g, processDataLine_short g l hlen, rfl, rfl, rfl⟩
  · rw [goodLine, if_neg hlen] at hg
    cases hrec : lineRecord l with
    | none => rw [hrec] at hg; simp at hg
    | some r =>
      obtain ⟨i1, j1, k1, vx, vy, vz⟩ := r
      rw [hrec] at hg
      simp only [decide_eq_true_eq] at hg
      obtain ⟨hi1, hi2, hj1, hj2, hk1, hk2⟩ := hg
      have ha : npIdx g.nx (i1 - 1) = some (i1 - 1).toNat := by
        rw [npIdx, if_pos (by omega), if_pos (by omega)]
      have hb : npIdx g.ny (j1 - 1) = some (j1 - 1).toNat := by
        rw [npIdx, if_pos (by omega), if_pos (by omega)]
      have hc : npIdx g.nz (k1 - 1) = some (k1 - 1).toNat := by
        rw [npIdx, if_pos (by omega), if_pos (by omega)]
      refine ⟨{ g with
          px := Function.update g.px
            ((i1 - 1).toNat, (j1 - 1).toNat, (k1 - 1).toNat) vx,
          py := Function.update g.py
            ((i1 - 1).toNat, (j1 - 1).toNat, (k1 - 1).toNat) vy,
          pz := Function.update g.pz
            ((i1 - 1).toNat, (j1 - 1).toNat, (k1 - 1).toNat) vz }, ?_, rfl, rfl, rfl⟩
      rw [processDataLine, if_neg hlen, hrec]
      dsimp only
      rw [ha, hb, hc]

theorem foldData_good (nx ny nz : ℕ) (ls : List String) : ∀ (g : Grid),
    g.nx = nx → g.ny = ny → g.nz = nz →
    (∀ l ∈ ls, goodLine nx ny nz l = true) →
    ∃ g', foldData g ls = some g' ∧ g'.nx = nx ∧ g'.ny = ny ∧ g'.nz = nz := by
  induction ls with
  | nil => intro g h1 h2 h3 _; exact ⟨g, rfl, h1, h2, h3⟩
  | cons l ls ih =>
    intro g h1 h2 h3 hall
    have hg : goodLine g.nx g.ny g.nz l = true := by
      rw [h1, h2, h3]; exact hall l (List.mem_cons_self l ls)
    obtain ⟨g1, hg1, e1, e2, e3⟩ := processDataLine_good g l hg
    rw [h1] at e1
    rw [h2] at e2
    rw [h3] at e3
    obtain ⟨g', hfold, f1, f2, f3⟩ :=
      ih g1 e1 e2 e3 (fun x hx => hall x (List.mem_cons_of_mem _ hx))
    refine ⟨g', ?_, f1, f2, f3⟩
    rw [foldData, hg1]
    exact hfold

theorem chunkGood_parts (nx ny nz : ℕ) (lines : List String)
    (hc : chunkGood nx ny nz lines = true) :
    3 ≤ (headerOf lines).length ∧
    ∀ l ∈ lines.tail, goodLine nx ny nz l = true := by
  rw [chunkGood, Bool.and_eq_true, decide_eq_true_eq, List.all_eq_true] at hc
  exact hc

theorem processChunk_good_some (nx ny nz : ℕ) (g : Grid) (lines : List String)
    (h1 : g.nx = nx) (h2 : g.ny = ny) (h3 : g.nz = nz)
    (hc : chunkGood nx ny nz lines = true) :
    ∃ g', processChunk (some g) lines = some g' ∧ g'.nx = nx ∧ g'.ny = ny ∧
      g'.nz = nz := by
  obtain ⟨hh, hall⟩ := chunkGood_parts nx ny nz lines hc
  rw [processChunk.eq_def, if_neg (by omega)]
  exact foldData_good nx ny nz lines.tail g h1 h2 h3 hall

theorem processChunk_good_first (nx ny nz : ℕ) (lines : List String)
    (hc : chunkGood nx ny nz lines = true)
    (hh : firstHeaderIs lines nx ny nz = true) :
    ∃ g', processChunk none lines = some g' ∧ g'.nx = nx ∧ g'.ny = ny ∧
      g'.nz = nz := by
  obtain ⟨hlen, hall⟩ := chunkGood_parts nx ny nz lines hc
  rw [processChunk.eq_def, if_neg (by omega)]
  rw [firstHeaderIs] at hh
  rcases hhd : headerOf lines with _ | ⟨a, _ | ⟨b, _ | ⟨c, t⟩⟩⟩ <;>
    rw [hhd] at hh hlen <;> try simp at hh
  have hh' : pyInt a = some ((nx : ℤ)) ∧ pyInt b = some ((ny : ℤ)) ∧
      pyInt c = some ((nz : ℤ)) := by
    simpa [Bool.and_eq_true, beq_iff_eq, and_assoc] using hh
  obtain ⟨ha, hb, hc'⟩ := hh'
  dsimp only
  rw [ha, hb, hc']
  dsimp only
  rw [if_neg (by omega)]
  refine foldData_good nx ny nz lines.tail _ ?_ ?_ ?_ hall <;> simp

theorem processChunks_good (nx ny nz : ℕ) (fs : ℕ → Option (List String))
    (fstep : ℕ) : ∀ (rs : List ℕ) (g : Grid),
    g.nx = nx → g.ny = ny → g.nz = nz →
    (∀ r ∈ rs, ∃ lines, fs (fstep + r) = some lines ∧
      chunkGood nx ny nz lines = true) →
    ∃ g', processChunks fs fstep rs (some g) = some (some g') ∧
      g'.nx = nx ∧ g'.ny = ny ∧ g'.nz = nz := by
  intro rs
  induction rs with
  | nil => intro g h1 h2 h3 _; exact ⟨g, rfl, h1, h2, h3⟩
  | cons r rs ih =>
    intro g h1 h2 h3 hall
    obtain ⟨lines, hfs, hcg⟩ := hall r (List.mem_cons_self r rs)
    obtain ⟨g1, hpc, e1, e2, e3⟩ :=
      processChunk_good_some nx ny nz g lines h1 h2 h3 hcg
    obtain ⟨g', hrest, f1, f2, f3⟩ :=
      ih g1 e1 e2 e3 (fun x hx => hall x (List.mem_cons_of_mem _ hx))
    refine ⟨g', ?_, f1, f2, f3⟩
    rw [processChunks, hfs]
    dsimp only
    rw [hpc]
    exact hrest

/-- With every chunk present and well formed, and the first header declaring
the dimensions, the scan assembles a grid of exactly those dimensions. -/
theorem extractGrid_success (numChunks : ℕ) (fs : ℕ → Option (List String))
    (fstep nx ny nz : ℕ) (h0 : 0 < numChunks)
    (hch : ∀ r, r < numChunks → ∃ lines, fs (fstep + r) = some lines ∧
      chunkGood nx ny nz lines = true)
    (hfh : ∀ lines0, fs (fstep + 0) = some lines0 →
      firstHeaderIs lines0 nx ny nz = true) :
    ∃ g, extractGrid numChunks fs fstep = some (some g) ∧
      g.nx = nx ∧ g.ny = ny ∧ g.nz = nz := by
  obtain ⟨n, rfl⟩ : ∃ n, numChunks = n + 1 := ⟨numChunks - 1, by omega⟩
  obtain ⟨lines0, hfs0, hcg0⟩ := hch 0 (by omega)
  obtain ⟨g0, hpc0, e1, e2, e3⟩ :=
    processChunk_good_first nx ny nz lines0 hcg0 (hfh lines0 hfs0)
  have hrest : ∀ r ∈ List.range' 1 n, ∃ lines, fs (fstep + r) = some lines ∧
      chunkGood nx ny nz lines = true := by
    intro r hr
    rw [List.mem_range'] at hr
    obtain ⟨i, hi, rfl⟩ := hr
    exact hch (1 + 1 * i) (by omega)
  obtain ⟨g', hrun, f1, f2, f3⟩ :=
    processChunks_good nx ny nz fs fstep (List.range' 1 n) g0 e1 e2 e3 hrest
  refine ⟨g', ?_, f1, f2, f3⟩
  rw [extractGrid, List.range_eq_range', List.range'_succ, processChunks, hfs0]
  dsimp only
  rw [hpc0]
  exact hrun

/-! ## Structure of the rendered restart file -/

theorem stringExt (s t : String) (h : s.toList = t.toList) : s = t := by
  cases s
  cases t
  exact congrArg String.mk h

theorem stringJoin_cons (s : String) (ls : List String) :
    String.join (s :: ls) = s ++ String.join ls := by
  apply stringExt
  have h1 := join_toList (s :: ls)
  have h2 := join_toList ls
  rw [pyWritelines] at h1 h2
  rw [h1, List.map_cons, List.flatten_cons, ← h2]
  simp [String.toList, String.data_append]

theorem digitChar_ne_nl (n : ℕ) : Nat.digitChar n ≠ '\n' := by
  by_cases h : n < 16
  · have hall : ∀ m, m < 16 → Nat.digitChar m ≠ '\n' := by decide
    exact hall n h
  · have h0 : ¬ (n = 0) := by omega
    have h1 : ¬ (n = 1) := by omega
    have h2 : ¬ (n = 2) := by omega
    have h3 : ¬ (n = 3) := by omega
    have h4 : ¬ (n = 4) := by omega
    have h5 : ¬ (n = 5) := by omega
    have h6 : ¬ (n = 6) := by omega
    have h7 : ¬ (n = 7) := by omega
    have h8 : ¬ (n = 8) := by omega
    have h9 : ¬ (n = 9) := by omega
    have h10 : ¬ (n = 10) := by omega
    have h11 : ¬ (n = 11) := by omega
    have h12 : ¬ (n = 12) := by omega
    have h13 : ¬ (n = 13) := by omega
    have h14 : ¬ (n = 14) := by omega
    have h15 : ¬ (n = 15) := by omega
    simp only [Nat.digitChar, h0, h1, h2, h3, h4, h5, h6, h7, h8, h9, h10,
      h11, h12, h13, h14, h15, if_false]
    decide

theorem no_nl_of_digits (l : List Char) (h : l.all Char.isDigit = true) :
    '\n' ∉ l := by
  intro hmem
  rw [List.all_eq_true] at h
  exact absurd (h _ hmem) (by decide)

theorem padDigits_no_nl (k n : ℕ) : '\n' ∉ padDigits k n :=
  no_nl_of_digits _ (padDigits_all_digits k n)

theorem natRepr_no_nl (n : ℕ) : '\n' ∉ (natRepr n).toList :=
  no_nl_of_digits _ (padDigits_all_digits _ n)

theorem sciParts_no_nl (s : Bool) (m e : ℤ) : '\n' ∉ sciParts s m e := by
  intro h
  rw [sciParts] at h
  rcases List.mem_append.mp h with h | h
  · rcases List.mem_append.mp h with h | h
    · rcases List.mem_append.mp h with h | h
      · rcases List.mem_append.mp h with h | h
        · rcases List.mem_append.mp h with h | h
          · rcases List.mem_append.mp h with h | h
            · cases s
              · simp at h
              · rw [if_pos rfl] at h
                exact absurd (List.mem_singleton.mp h) (by decide)
            · exact digitChar_ne_nl _ (List.mem_singleton.mp h).symm
          · exact absurd (List.mem_singleton.mp h) (by decide)
        · exact padDigits_no_nl _ _ h
      · exact absurd (List.mem_singleton.mp h) (by decide)
    · split at h <;> exact absurd (List.mem_singleton.mp h) (by decide)
  · exact padDigits_no_nl _ _ h

theorem fmt5eFin_no_nl (q : ℚ) : '\n' ∉ fmt5eFin q := by
  rw [fmt5eFin]
  split
  · intro h; exact absurd h (by decide)
  · split
    · exact sciParts_no_nl _ _ _
    · exact sciParts_no_nl _ _ _

theorem fmt5eChars_no_nl (v : PyVal) : '\n' ∉ fmt5eChars v := by
  cases v with
  | fin q => exact fmt5eFin_no_nl q
  | inf neg => cases neg <;> decide
  | nan => decide

theorem format5e_no_nl (v : PyVal) : '\n' ∉ (format5e v).toList :=
  fmt5eChars_no_nl v

theorem joinTokens_no_nl (ts : List String)
    (h : ∀ t ∈ ts, '\n' ∉ t.toList) : '\n' ∉ (joinTokens ts).toList := by
  induction ts with
  | nil => simp [joinTokens, String.toList]
  | cons t ts ih =>
    cases ts with
    | nil => simpa [joinTokens] using h t (List.mem_cons_self t [])
    | cons t2 ts2 =>
      rw [joinTokens]
      intro hmem
      have hsplit : (t ++ " " ++ joinTokens (t2 :: ts2)).toList =
          t.toList ++ [' '] ++ (joinTokens (t2 :: ts2)).toList := by
        simp [String.toList, String.data_append]
      rw [hsplit] at hmem
      rcases List.mem_append.mp hmem with hmem | hmem
      · rcases List.mem_append.mp hmem with hmem | hmem
        · exact h t (List.mem_cons_self t _) hmem
        · exact absurd (List.mem_singleton.mp hmem) (by decide)
      · exact ih (fun x hx => h x (List.mem_cons_of_mem _ hx)) hmem

theorem renderLine_mid (ts : List String)
    (h : ∀ t ∈ ts, '\n' ∉ t.toList) : midChars (renderLine ts).toList := by
  refine ⟨(joinTokens ts).toList, ?_, joinTokens_no_nl ts h⟩
  simp [renderLine, String.toList, String.data_append]

theorem headerLine_mid (nx ny nz : ℕ) : midChars (headerLine nx ny nz).toList := by
  refine ⟨(natRepr nx).toList ++ [' '] ++ (natRepr ny).toList ++ [' '] ++
    (natRepr nz).toList, ?_, ?_⟩
  · simp [headerLine, String.toList, String.data_append]
  · intro hmem
    simp only [List.append_assoc, List.mem_append, List.mem_singleton] at hmem
    rcases hmem with h | h | h | h | h
    · exact natRepr_no_nl nx h
    · exact absurd h (by decide)
    · exact natRepr_no_nl ny h
    · exact absurd h (by decide)
    · exact natRepr_no_nl nz h

theorem getD_mem_of_lt {α : Type} (l : List α) (i : ℕ) (d : α)
    (h : i < l.length) : l.getD i d ∈ l := by
  rw [List.getD_eq_getElem?_getD, List.getElem?_eq_getElem h]
  exact List.getElem_mem h

theorem wf_of_all_mid (ls : List String) (h : ∀ l ∈ ls, midChars l.toList) :
    MidAllC (ls.map String.toList) ∧ LastOkC (ls.map String.toList) := by
  constructor
  · intro i hi
    rw [List.length_map] at hi
    rw [getD_map_toList ls i (by omega)]
    exact h _ (getD_mem_of_lt ls i "" (by omega))
  · intro i hi
    rw [List.length_map] at hi
    rw [getD_map_toList ls i (by omega)]
    exact Or.inl (h _ (getD_mem_of_lt ls i "" (by omega)))

/-- Every token of every data line of the restart file is newline-free. -/
theorem restartTokenLines_no_nl (g : Grid) (ts : List String)
    (hts : ts ∈ restartTokenLines g) : ∀ t ∈ ts, '\n' ∉ t.toList := by
  rw [restartTokenLines, List.mem_flatMap] at hts
  obtain ⟨i, _, hts⟩ := hts
  rw [List.mem_flatMap] at hts
  obtain ⟨j, _, hts⟩ := hts
  rw [List.mem_map] at hts
  obtain ⟨k, _, rfl⟩ := hts
  intro t ht
  simp only [List.mem_cons, List.not_mem_nil, or_false] at ht
  rcases ht with rfl | rfl | rfl | rfl | rfl | rfl
  · exact natRepr_no_nl _
  · exact natRepr_no_nl _
  · exact natRepr_no_nl _
  · exact format5e_no_nl _
  · exact format5e_no_nl _
  · exact format5e_no_nl _

/-- Reading the rendered restart file back yields the header line followed by
the rendered data lines. -/
theorem renderRestart_lines (g : Grid) :
    pyReadlines (renderRestart g) =
      headerLine g.nx g.ny g.nz :: (restartTokenLines g).map renderLine := by
  have hjoin : renderRestart g =
      pyWritelines (headerLine g.nx g.ny g.nz ::
        (restartTokenLines g).map renderLine) := by
    rw [renderRestart, pyWritelines, stringJoin_cons]
  rw [hjoin]
  have hmid : ∀ l ∈ headerLine g.nx g.ny g.nz ::
      (restartTokenLines g).map renderLine, midChars l.toList := by
    intro l hl
    rcases List.mem_cons.mp hl with rfl | hl
    · exact headerLine_mid g.nx g.ny g.nz
    · rw [List.mem_map] at hl
      obtain ⟨ts, hts, rfl⟩ := hl
      exact renderLine_mid ts (restartTokenLines_no_nl g ts hts)
  obtain ⟨h1, h2⟩ := wf_of_all_mid _ hmid
  exact readlines_join _ h1 h2

theorem length_flatMap_const {α : Type} (l : List ℕ) (f : ℕ → List α) (c : ℕ)
    (h : ∀ x ∈ l, (f x).length = c) : (l.flatMap f).length = l.length * c := by
  induction l with
  | nil => simp
  | cons a t ih =>
    rw [List.flatMap_cons, List.length_append, h a (List.mem_cons_self a t),
      ih (fun x hx => h x (List.mem_cons_of_mem _ hx)), List.length_cons]
    ring

theorem restartTokenLines_length (g : Grid) :
    (restartTokenLines g).length = g.nx * g.ny * g.nz := by
  rw [restartTokenLines,
    length_flatMap_const _ _ (g.ny * g.nz) ?_, List.length_range]
  · ring
  · intro i _
    rw [length_flatMap_const _ _ g.nz ?_, List.length_range]
    intro j _
    rw [List.length_map, List.length_range]

theorem flatMap_congr_left {α β : Type} (l : List α) (f f' : α → List β)
    (h : ∀ a ∈ l, f a = f' a) : l.flatMap f = l.flatMap f' := by
  induction l with
  | nil => rfl
  | cons a t ih =>
    rw [List.flatMap_cons, List.flatMap_cons, h a (List.mem_cons_self a t),
      ih (fun x hx => h x (List.mem_cons_of_mem _ hx))]

theorem restartTokenLines_take3 (g : Grid) :
    (restartTokenLines g).map (fun ts => ts.take 3) =
      (allTriples g.nx g.ny g.nz).map tripleTokens := by
  rw [restartTokenLines, allTriples, List.map_flatMap, List.map_flatMap]
  refine flatMap_congr_left _ _ _ (fun i _ => ?_)
  rw [List.map_flatMap, List.map_flatMap]
  refine flatMap_congr_left _ _ _ (fun j _ => ?_)
  rw [List.map_map, List.map_map]
  rfl

theorem allTriples_length (nx ny nz : ℕ) :
    (allTriples nx ny nz).length = nx * ny * nz := by
  rw [allTriples, length_flatMap_const _ _ (ny * nz) ?_, List.length_range]
  · ring
  · intro i _
    rw [length_flatMap_const _ _ nz ?_, List.length_range]
    intro j _
    rw [List.length_map, List.length_range]

theorem allTriples_nodup (nx ny nz : ℕ) : (allTriples nx ny nz).Nodup := by
  rw [allTriples, List.nodup_flatMap]
  constructor
  · intro i _
    rw [List.nodup_flatMap]
    constructor
    · intro j _
      refine (List.nodup_range nz).map ?_
      intro k k' hkk
      simpa using hkk
    · refine List.Pairwise.imp ?_ (List.pairwise_lt_range ny)
      intro j j' hjj t ht ht'
      rw [List.mem_map] at ht ht'
      obtain ⟨k, _, rfl⟩ := ht
      obtain ⟨k', _, hk'⟩ := ht'
      have : j + 1 = j' + 1 := by
        have := congrArg (fun t => t.2.1) hk'
        simpa using this.symm
      omega
  · refine List.Pairwise.imp ?_ (List.pairwise_lt_range nx)
    intro i i' hii t ht ht'
    rw [List.mem_flatMap] at ht ht'
    obtain ⟨j, _, ht⟩ := ht
    obtain ⟨j', _, ht'⟩ := ht'
    rw [List.mem_map] at ht ht'
    obtain ⟨k, _, rfl⟩ := ht
    obtain ⟨k', _, hk'⟩ := ht'
    have : i + 1 = i' + 1 := by
      have := congrArg (fun t => t.1) hk'
      simpa using this.symm
    omega

/-- The stored scalar values of the grid, in write order (three per point). -/
def gridVals (g : Grid) : List PyVal :=
  (List.range g.nx).flatMap (fun i =>
    (List.range g.ny).flatMap (fun j =>
      (List.range g.nz).flatMap (fun k =>
        [g.px (i, j, k), g.py (i, j, k), g.pz (i, j, k)])))

/-- The three scalar tokens of each data line, in write order. -/
def valueTokenLines (g : Grid) : List (List String) :=
  (List.range g.nx).flatMap (fun i =>
    (List.range g.ny).flatMap (fun j =>
      (List.range g.nz).map (fun k =>
        [format5e (g.px (i, j, k)), format5e (g.py (i, j, k)),
         format5e (g.pz (i, j, k))])))

/-- A single-chunk file set storing `inf` at the only grid point. -/
def c6InfFsExample : ℕ → Option (List String) := fun n =>
  if n = 9 then some ["1 1 1\n", "1 1 1 inf inf inf\n"] else none

/-- Counterexample to C6 as stated: a chunk whose value tokens are `inf` —
accepted by Python's `float()` — extracts successfully, yet the restart
file's scalar tokens are `inf`, not scientific notation. -/
theorem c6_claim_counterexample :
    extract_final_state 1 c6InfFsExample 9 =
      (true, some (renderRestart (extractGridD 1 c6InfFsExample 9))) ∧
    ((restartTokenLines (extractGridD 1 c6InfFsExample 9)).all
      (fun ts => (ts.drop 3).all (fun t => isSci5 t))) = false :=
  ⟨by decide, by decide⟩

/-- **C6** (amended): in the restart file written by a successful
extraction, each data line's three scalar tokens are `f"{v:.5e}"` of the
stored values, and every token whose stored value is finite is a
scientific-notation token with a one-digit integer part and exactly five
fractional digits, shaped like the spec's example `1.23450e-01` (a
non-finite stored value prints as `inf`/`-inf`/`nan` instead). -/
theorem c6_finite_scalars_sci5 (numChunks : ℕ) (fs : ℕ → Option (List String))
    (fstep : ℕ) (out : String)
    (h : extract_final_state numChunks fs fstep = (true, some out)) :
    out = renderRestart (extractGridD numChunks fs fstep) ∧
    (restartTokenLines (extractGridD numChunks fs fstep)).map
      (fun ts => ts.drop 3) = valueTokenLines (extractGridD numChunks fs fstep) ∧
    ((gridVals (extractGridD numChunks fs fstep)).all
      (fun v => !(PyVal.isFinite v) || isSci5 (format5e v))) = true := by
  refine ⟨(extract_success_render numChunks fs fstep out h).2, ?_, ?_⟩
  · rw [restartTokenLines, valueTokenLines, List.map_flatMap]
    refine flatMap_congr_left _ _ _ (fun i _ => ?_)
    rw [List.map_flatMap]
    refine flatMap_congr_left _ _ _ (fun j _ => ?_)
    rw [List.map_map]
    rfl
  · rw [List.all_eq_true]
    intro v _
    cases v with
    | fin q => simpa using Or.inr (isSci5_format5e q)
    | inf neg => rfl
    | nan => rfl

/-- A single complete chunk file for a 1×1×1 grid with finite values. -/
def sciFsExample : ℕ → Option (List String) := fun n =>
  if n = 7 then some ["1 1 1\n", "1 1 1 0.5 -2.0 0.125\n"] else none

/-- Witness for the amended C6 on a concrete one-point extraction. -/
theorem c6_finite_scalars_sci5_witness :
    extract_final_state 1 sciFsExample 7 =
      (true, some (renderRestart (extractGridD 1 sciFsExample 7))) ∧
    (renderRestart (extractGridD 1 sciFsExample 7) =
      renderRestart (extractGridD 1 sciFsExample 7) ∧
    (restartTokenLines (extractGridD 1 sciFsExample 7)).map
      (fun ts => ts.drop 3) = valueTokenLines (extractGridD 1 sciFsExample 7) ∧
    ((gridVals (extractGridD 1 sciFsExample 7)).all
      (fun v => !(PyVal.isFinite v) || isSci5 (format5e v))) = true) :=
  ⟨by rfl, c6_finite_scalars_sci5 1 sciFsExample 7
    (renderRestart (extractGridD 1 sciFsExample 7)) (by rfl)⟩

/-- **C1**: for a complete set of chunk files — every expected file present
and well formed, the first header declaring `nx ny nz`, and the data records
jointly and exactly covering `[1,nx]×[1,ny]×[1,nz]` — extraction succeeds,
and the restart file is the line `nx ny nz` followed by exactly
`nx * ny * nz` data lines whose leading index tokens enumerate the grid in
nested order (outer `i`, middle `j`, inner `k`), 1-indexed, each triple
exactly once (the enumeration is duplicate-free). -/
theorem c1_complete_coverage_extracts (numChunks : ℕ)
    (fs : ℕ → Option (List String)) (fstep nx ny nz : ℕ)
    (h0 : 0 < numChunks)
    (hch : ∀ r, r < numChunks → ∃ lines, fs (fstep + r) = some lines ∧
      chunkGood nx ny nz lines = true)
    (hfh : ∀ lines0, fs (fstep + 0) = some lines0 →
      firstHeaderIs lines0 nx ny nz = true)
    (_hcov : CoversExactly numChunks fs fstep nx ny nz) :
    extract_final_state numChunks fs fstep =
      (true, some (renderRestart (extractGridD numChunks fs fstep))) ∧
    (extractGridD numChunks fs fstep).nx = nx ∧
    (extractGridD numChunks fs fstep).ny = ny ∧
    (extractGridD numChunks fs fstep).nz = nz ∧
    pyReadlines (renderRestart (extractGridD numChunks fs fstep)) =
      headerLine nx ny nz ::
        (restartTokenLines (extractGridD numChunks fs fstep)).map renderLine ∧
    (restartTokenLines (extractGridD numChunks fs fstep)).length =
      nx * ny * nz ∧
    (restartTokenLines (extractGridD numChunks fs fstep)).map
      (fun ts => ts.take 3) = (allTriples nx ny nz).map tripleTokens ∧
    (allTriples nx ny nz).Nodup := by
  obtain ⟨g, hE, e1, e2, e3⟩ :=
    extractGrid_success numChunks fs fstep nx ny nz h0 hch hfh
  have hD : extractGridD numChunks fs fstep = g := by
    rw [extractGridD, hE]
  refine ⟨?_, by rw [hD, e1], by rw [hD, e2], by rw [hD, e3], ?_, ?_, ?_,
    allTriples_nodup nx ny nz⟩
  · rw [extract_final_state, hE, hD]
  · rw [hD, renderRestart_lines g, e1, e2, e3]
  · rw [hD, restartTokenLines_length, e1, e2, e3]
  · rw [hD, restartTokenLines_take3, e1, e2, e3]

/-- A complete single-chunk file set covering a 2×1×1 grid. -/
def c1FsExample : ℕ → Option (List String) := fun n =>
  if n = 3 then
    some ["2 1 1\n", "1 1 1 0.5 0.5 0.5\n", "2 1 1 1.5 0.25 0.75\n"]
  else none

/-- Witness for C1 on the 2×1×1 example. -/
theorem c1_complete_coverage_extracts_witness :
    (0 < 1 ∧ CoversExactly 1 c1FsExample 3 2 1 1) ∧
    (extract_final_state 1 c1FsExample 3 =
      (true, some (renderRestart (extractGridD 1 c1FsExample 3))) ∧
    (extractGridD 1 c1FsExample 3).nx = 2 ∧
    (extractGridD 1 c1FsExample 3).ny = 1 ∧
    (extractGridD 1 c1FsExample 3).nz = 1 ∧
    pyReadlines (renderRestart (extractGridD 1 c1FsExample 3)) =
      headerLine 2 1 1 ::
        (restartTokenLines (extractGridD 1 c1FsExample 3)).map renderLine ∧
    (restartTokenLines (extractGridD 1 c1FsExample 3)).length = 2 * 1 * 1 ∧
    (restartTokenLines (extractGridD 1 c1FsExample 3)).map
      (fun ts => ts.take 3) = (allTriples 2 1 1).map tripleTokens ∧
    (allTriples 2 1 1).Nodup) := by
  have hcov : CoversExactly 1 c1FsExample 3 2 1 1 := by
    rw [CoversExactly,
      show ((allRecords 1 c1FsExample 3).map
        (fun rec => (rec.1, rec.2.1, rec.2.2.1))) = intTriples 2 1 1 from
        by decide]
  refine ⟨⟨Nat.zero_lt_one, hcov⟩,
    c1_complete_coverage_extracts 1 c1FsExample 3 2 1 1 Nat.zero_lt_one
      ?_ ?_ hcov⟩
  · intro r hr
    have hr0 : r = 0 := by omega
    subst hr0
    exact ⟨_, rfl, by decide⟩
  · intro lines0 hl
    have hl' : (some ["2 1 1\n", "1 1 1 0.5 0.5 0.5\n",
        "2 1 1 1.5 0.25 0.75\n"] : Option (List String)) = some lines0 := hl
    injection hl' with hl2
    subst hl2
    decide

end SeqRun
